import Mathlib

/-!
Verification of the temporal knowledge-graph ingestion pipeline
(`temporalagent/main.py`): entity resolution, temporal invalidation,
graph assembly, and date parsing.

Modelling conventions:
* Python UUIDs are modelled as `Nat` (opaque identifiers; `str` on UUIDs is
  injective, so string conversion at graph nodes is dropped).
* Python `datetime` values attached to events are modelled as `Nat`
  timestamps: all event datetimes are timezone-aware (produced by
  `parse_date_str`), so they carry a total order, and `datetime` objects are
  always truthy in Python, so the truthiness tests become `Option.isSome`.
* `rapidfuzz.fuzz.ratio` / `fuzz.partial_ratio` return floats in [0, 100];
  they are external pure string functions and enter the development as
  parameters `sim pr : String → String → ℚ`.
* Embeddings and their cosine-similarity filter are external (OpenAI
  embeddings + `scipy.spatial.distance.cosine`); they enter as parameters
  `embed : String → Emb` and `simF : Emb → Emb → Bool` (the latter models
  `1 - cosine e1 e2 > 0.5`).
* The LLM referee of the invalidation pass (the "oracle") is the external
  boolean judgment `r.content.strip().lower() == "true"`; it enters as a
  parameter `oracle : TemporalEvent → TemporalEvent → Bool`.
* Python dicts are modelled as association lists with insert-or-replace
  (`dictInsert`) and first-match lookup (`dictLookup`); since `dictInsert`
  never produces duplicate keys this matches dict semantics.
-/

/-- Association-list lookup with dict semantics (keys kept unique by
`dictInsert`). -/
def dictLookup {κ α : Type} [DecidableEq κ] : List (κ × α) → κ → Option α
  | [], _ => none
  | p :: rest, k => if p.1 = k then some p.2 else dictLookup rest k

/-- Association-list insert-or-replace, modelling `d[k] = v` on a Python
dict. -/
def dictInsert {κ α : Type} [DecidableEq κ] : List (κ × α) → κ → α → List (κ × α)
  | [], k, v => [(k, v)]
  | p :: rest, k, v => if p.1 = k then (k, v) :: rest else p :: dictInsert rest k v

/-! ## Data model (`StatementType.py`, `TemporalType.py`, `Predicate.py`,
`Entity.py`, `Triplet.py`, `TemporalEvent.py`) -/

inductive StatementType where
  | FACT
  | OPINION
  | PREDICTION
deriving DecidableEq, Repr

inductive TemporalType where
  | ATEMPORAL
  | STATIC
  | DYNAMIC
deriving DecidableEq, Repr

inductive Predicate where
  | IS_A
  | HAS_A
  | LOCATED_IN
  | HOLDS_ROLE
  | PRODUCES
  | SELLS
  | LAUNCHED
  | DEVELOPED
  | ADOPTED_BY
  | INVESTS_IN
  | COLLABORATES_WITH
  | SUPPLIES
  | HAS_REVENUE
  | INCREASED
  | DECREASED
  | RESULTED_IN
  | TARGETS
  | PART_OF
  | DISCONTINUED
  | SECURED
deriving DecidableEq, Repr

/-- Models `Predicate.value` (the string payload of the `str`-valued enum). -/
def Predicate.value : Predicate → String
  | .IS_A => "IS_A"
  | .HAS_A => "HAS_A"
  | .LOCATED_IN => "LOCATED_IN"
  | .HOLDS_ROLE => "HOLDS_ROLE"
  | .PRODUCES => "PRODUCES"
  | .SELLS => "SELLS"
  | .LAUNCHED => "LAUNCHED"
  | .DEVELOPED => "DEVELOPED"
  | .ADOPTED_BY => "ADOPTED_BY"
  | .INVESTS_IN => "INVESTS_IN"
  | .COLLABORATES_WITH => "COLLABORATES_WITH"
  | .SUPPLIES => "SUPPLIES"
  | .HAS_REVENUE => "HAS_REVENUE"
  | .INCREASED => "INCREASED"
  | .DECREASED => "DECREASED"
  | .RESULTED_IN => "RESULTED_IN"
  | .TARGETS => "TARGETS"
  | .PART_OF => "PART_OF"
  | .DISCONTINUED => "DISCONTINUED"
  | .SECURED => "SECURED"

/-- `Entity` (pydantic model from `Entity.py`); `id` models the UUID. -/
structure Entity where
  id : Nat
  name : String
  type : String
  description : String
  resolved_id : Option Nat
deriving DecidableEq, Repr

/-- `Triplet` (pydantic model from `Triplet.py`). -/
structure Triplet where
  id : Nat
  subject_name : String
  subject_id : Nat
  predicate : Predicate
  object_name : String
  object_id : Nat
  value : Option String
deriving DecidableEq, Repr

/-- `TemporalEvent` (pydantic model from `TemporalEvent.py`); the embedding
vector type is a parameter (`list[float]` in the source), datetimes are `Nat`
timestamps. -/
structure TemporalEvent (Emb : Type) where
  id : Nat
  chunk_id : Nat
  statement : String
  embedding : Emb
  statement_type : StatementType
  temporal_type : TemporalType
  valid_at : Option Nat
  invalid_at : Option Nat
  triplets : List Nat
  created_at : Nat
  expired_at : Option Nat
  invalidated_by : Option Nat
deriving DecidableEq, Repr

/-- The slice of `GraphState` that the resolution/invalidation/assembly
stages read and write (`chunks` is never consumed by them). -/
structure RState (Emb : Type) where
  entities : List Entity
  triplets : List Triplet
  temporal_events : List (TemporalEvent Emb)
deriving DecidableEq, Repr

/-! ## Date parsing (`parse_date_str`, main.py lines 263-290) -/

/-- A Python `datetime`: `tzoffset = none` models a naive datetime, `some 0`
models `timezone.utc`. -/
structure PDateTime where
  year : Nat
  month : Nat
  day : Nat
  hour : Nat
  minute : Nat
  second : Nat
  tzoffset : Option Int
deriving DecidableEq, Repr

/-- January 1st, midnight UTC of the given year. -/
def utcJan1 (y : Nat) : PDateTime := ⟨y, 1, 1, 0, 0, 0, some 0⟩

/-- Models `datetime(year, 1, 1, tzinfo=timezone.utc)`: the constructor
raises `ValueError` for years outside `MINYEAR = 1 .. MAXYEAR = 9999`; the
`none` result models that raise (caught by the `except` in
`parse_date_str`). -/
def datetimeJan1UTC (y : Nat) : Option PDateTime :=
  if 1 ≤ y ∧ y ≤ 9999 then some (utcJan1 y) else none

/-- Models Python `str.strip()` (strip leading and trailing whitespace). -/
def pyStrip (s : String) : String :=
  String.mk (((s.toList.dropWhile Char.isWhitespace).reverse.dropWhile
    Char.isWhitespace).reverse)

/-- Models `re.fullmatch(r"\d{4}", s)` (restricted to ASCII digits). -/
def isFourDigits (s : String) : Bool :=
  s.toList.length == 4 && s.toList.all Char.isDigit

/-- Models `int(s)` on an all-digit string. -/
def digitsToNat (s : String) : Nat :=
  s.toList.foldl (fun n c => n * 10 + (c.toNat - 48)) 0

/-- Models `dt if dt.tzinfo else dt.replace(tzinfo=timezone.utc)`. -/
def withUTCIfNaive (dt : PDateTime) : PDateTime :=
  match dt.tzoffset with
  | some _ => dt
  | none => { dt with tzoffset := some 0 }

/-- Shallow embedding of `parse_date_str` on string-or-None input.
`dparse` is the external `dateutil.parser.parse` (returning `none` when it
raises). The `isinstance(value, datetime)` branch is not modelled: the
claims concern string inputs only. -/
def parse_date_str (dparse : String → Option PDateTime) (value : Option String) :
    Option PDateTime :=
  match value with
  | none => none
  | some s =>
    if s = "" then none
    else if isFourDigits (pyStrip s) then
      datetimeJan1UTC (digitsToNat (pyStrip s))
    else
      match dparse s with
      | none => none
      | some dt => some (withUTCIfNaive dt)


/-! ## Entity resolution (`resolve_entities_in_state`, main.py lines 667-744) -/

/-- A mention: an entity tagged with its position in `state["entities"]`,
modelling Python object identity for list elements. -/
abbrev Mention := Nat × Entity

/-- First-occurrence deduplication: the iteration order of a Python dict or
set built by insertion (`defaultdict(list)` grouping, set membership). -/
def firstDedup {α : Type} [DecidableEq α] : List α → List α
  | [] => []
  | a :: rest => a :: firstDedup (rest.filter (fun b => decide (b ≠ a)))
termination_by l => l.length
decreasing_by
  simp only [List.length_cons]
  exact Nat.lt_succ_of_le (List.length_filter_le _ _)

/-- Single-pass greedy clustering (main.py lines 693-706): the first
unclustered mention seeds a cluster and absorbs every later unclustered
mention whose partial similarity score against the seed is at least 80
(`fuzz.partial_ratio(...) >= 80.0`). -/
def buildClusters (pr : String → String → ℚ) : List Mention → List (List Mention)
  | [] => []
  | a :: rest =>
    (a :: rest.filter (fun b => decide (80 ≤ pr a.2.name.toLower b.2.name.toLower))) ::
      buildClusters pr (rest.filter (fun b => ! decide (80 ≤ pr a.2.name.toLower b.2.name.toLower)))
termination_by l => l.length
decreasing_by
  simp only [List.length_cons]
  exact Nat.lt_succ_of_le (List.length_filter_le _ _)

/-- The distinct entity types, in first-appearance order (the iteration
order of `type_groups`). -/
def typeKeys (entities : List Entity) : List String :=
  firstDedup (entities.map (fun e => e.type))

/-- The group of mentions of one type (main.py lines 682-684). -/
def typeGroup (entities : List Entity) (t : String) : List Mention :=
  entities.enum.filter (fun p => p.2.type == t)

/-- All clusters produced for a batch: per-type greedy clustering. -/
def clustersFor (pr : String → String → ℚ) (entities : List Entity) : List (List Mention) :=
  ((typeKeys entities).map (fun t => buildClusters pr (typeGroup entities t))).flatten

/-- Python `max(key=f)` / the running best of a fold: replace the current
best only on a strictly greater key, so ties keep the earliest element. -/
def selFold {α β : Type} [LinearOrder β] (f : α → β) (q : α) : List α → α
  | [] => q
  | b :: rest => selFold f (if f q < f b then b else q) rest

/-- Python `max(xs, key=f)`; `none` on the empty list (where Python would
raise `ValueError`). -/
def pickMax {α β : Type} [LinearOrder β] (f : α → β) : List α → Option α
  | [] => none
  | a :: rest => some (selFold f a rest)

/-- Summed symmetric similarity of a name against every cluster member
(main.py line 710); the Python generator ranges over the whole cluster, so
the term for the member itself is included. -/
def nameScore (sim : String → String → ℚ) (cluster : List Mention) (e : Entity) : ℚ :=
  (cluster.map (fun o => sim e.name.toLower o.2.name.toLower)).sum

/-- Medoid selection (main.py line 711): `max(cluster, key=lambda e:
scores[e.name])`. The Python `scores` dict is keyed by name, but the summed
score is a function of the name alone, so keying by name loses nothing. -/
def medoid (sim : String → String → ℚ) (cluster : List Mention) : Option Mention :=
  pickMax (fun p => nameScore sim cluster p.2) cluster

/-- The cluster's canonical name: the medoid's name (main.py line 712). -/
def canonicalNameOf (sim : String → String → ℚ) (cluster : List Mention) : Option String :=
  (medoid sim cluster).map (fun p => p.2.name)

/-- Remove the first occurrence of an element from a list. -/
def removeFirst {α : Type} [DecidableEq α] : List α → α → List α
  | [], _ => []
  | a :: rest, x => if a = x then rest else a :: removeFirst rest x

/-- Comparison definition, following the specification's words: the summed
symmetric similarity of a member against all *other* cluster members. -/
def othersScore (sim : String → String → ℚ) (cluster : List Mention) (x : Mention) : ℚ :=
  ((removeFirst cluster x).map (fun o => sim x.2.name.toLower o.2.name.toLower)).sum

/-- Canonical-id choice for one cluster (main.py lines 714-722): `store` is
`global_canonicals` (canonical name → UUID, read from the entities table),
`nm` is `newly_created_canonicals`, `m` the medoid entity. -/
def assignCluster (store : List (String × Nat)) (nm : List (String × Entity)) (m : Entity) :
    Nat × List (String × Entity) :=
  match dictLookup store m.name with
  | some cid => (cid, nm)
  | none =>
    match dictLookup nm m.name with
    | some e => (e.id, nm)
    | none => (m.id, dictInsert nm m.name m)

/-- The per-cluster loop (main.py lines 709-727): pairs every cluster with
its canonical id, threading `newly_created_canonicals`. Clusters are always
nonempty, so the `medoid = none` skip is unreachable. -/
def processClusters (sim : String → String → ℚ) (store : List (String × Nat)) :
    List (String × Entity) → List (List Mention) →
      List (List Mention × Nat) × List (String × Entity)
  | nm, [] => ([], nm)
  | nm, c :: rest =>
    match medoid sim c with
    | none => processClusters sim store nm rest
    | some m =>
      let r := assignCluster store nm m.2
      let q := processClusters sim store r.2 rest
      ((c, r.1) :: q.1, q.2)

/-- The mention-index → canonical-id map defined by the per-cluster member
loop `entity.resolved_id = canonical_id` (main.py lines 725-727), keyed by
mention index to model Python object identity. -/
def ridMap (pairs : List (List Mention × Nat)) : List (Nat × Nat) :=
  pairs.foldl (fun m p => p.1.foldl (fun m' q => dictInsert m' q.1 p.2) m) []

/-- `resolved_id_map` (entity UUID → canonical UUID, main.py line 727). -/
def resolvedIdMap (pairs : List (List Mention × Nat)) : List (Nat × Nat) :=
  pairs.foldl (fun m p => p.1.foldl (fun m' q => dictInsert m' q.2.id p.2) m) []

/-- Triplet endpoint rewrite (main.py lines 730-734). -/
def applyTripletMap (idMap : List (Nat × Nat)) (t : Triplet) : Triplet :=
  let t1 := match dictLookup idMap t.subject_id with
    | some cid => { t with subject_id := cid }
    | none => t
  match dictLookup idMap t1.object_id with
  | some cid => { t1 with object_id := cid }
  | none => t1

/-- `resolve_entities_in_state` (main.py lines 667-744) as a state
transform; the second component is `newly_created_canonicals`, which the
node inserts into the entities table after the loop. -/
def resolve_entities_in_state {Emb : Type} (sim pr : String → String → ℚ)
    (store : List (String × Nat)) (st : RState Emb) :
    RState Emb × List (String × Entity) :=
  let res := processClusters sim store [] (clustersFor pr st.entities)
  let rm := ridMap res.1
  let im := resolvedIdMap res.1
  ({ entities := st.entities.enum.map (fun q =>
       match dictLookup rm q.1 with
       | some cid => { q.2 with resolved_id := some cid }
       | none => q.2),
     triplets := st.triplets.map (applyTripletMap im),
     temporal_events := st.temporal_events }, res.2)


/-- Concrete two-mention cluster used to exercise the medoid theorem. -/
def wCluster : List Mention :=
  [(0, ⟨1, "AMD", "Organization", "chipmaker", none⟩),
   (1, ⟨2, "amd", "Organization", "", none⟩)]


/-- Mention-level assignment: each mention paired with its cluster's
canonical id (the loop at main.py lines 725-727). -/
def mentionAssignment (pairs : List (List Mention × Nat)) : List (Mention × Nat) :=
  pairs.flatMap (fun p => p.1.map (fun q => (q, p.2)))


/-! ## Temporal invalidation (`invalidate_events_in_state`, main.py lines 845-891) -/

/-- `e2.valid_at and e1.valid_at and e2.valid_at >= e1.valid_at`: Python
datetimes are always truthy, so this is "both present and `e2` starts at or
after `e1`". -/
def vGe (b a : Option Nat) : Bool :=
  match b, a with
  | some bv, some av => av ≤ bv
  | _, _ => false

/-- The embedding pass (main.py lines 850-852): every event's embedding is
overwritten with the embedding of its statement. -/
def embedAll {Emb : Type} (embed : String → Emb) (events : List (TemporalEvent Emb)) :
    List (TemporalEvent Emb) :=
  events.map (fun e => { e with embedding := embed e.statement })

/-- Candidate filter (main.py lines 861-865), walking the event list with
its running index `j` (`enumerate`): a candidate is another event
(`j != i`) that is a FACT, has a `valid_at` at or after `e1`'s (both
present), and passes the embedding-similarity filter. -/
def candidatesAux {Emb : Type} (simF : Emb → Emb → Bool) (e1 : TemporalEvent Emb)
    (i : Nat) : Nat → List (TemporalEvent Emb) → List (TemporalEvent Emb)
  | _, [] => []
  | j, e2 :: rest =>
    if j ≠ i ∧ e2.statement_type = .FACT ∧ vGe e2.valid_at e1.valid_at
        ∧ simF e1.embedding e2.embedding then
      e2 :: candidatesAux simF e1 i (j + 1) rest
    else
      candidatesAux simF e1 i (j + 1) rest

/-- The candidates of the primary at index `i`. -/
def candidatesFor {Emb : Type} (simF : Emb → Emb → Bool)
    (events' : List (TemporalEvent Emb)) (i : Nat) (e1 : TemporalEvent Emb) :
    List (TemporalEvent Emb) :=
  candidatesAux simF e1 i 0 events'

/-- The `updates` dict: primary event id → `(invalid_at, invalidated_by)`. -/
abbrev Updates := List (Nat × (Nat × Nat))

/-- One step of the update-recording loop (main.py lines 881-883): a
confirmed candidate replaces the stored one only when strictly earlier, so
ties keep the first seen. Candidates always carry a `valid_at` (the filter
requires it); the `none` branch is unreachable. -/
def recordStep {Emb : Type} (oracle : TemporalEvent Emb → TemporalEvent Emb → Bool)
    (e1 : TemporalEvent Emb) (upd : Updates) (c : TemporalEvent Emb) : Updates :=
  match c.valid_at with
  | none => upd
  | some cv =>
    if oracle e1 c then
      match dictLookup upd e1.id with
      | none => dictInsert upd e1.id (cv, c.id)
      | some p => if cv < p.1 then dictInsert upd e1.id (cv, c.id) else upd
    else upd

def recordCands {Emb : Type} (oracle : TemporalEvent Emb → TemporalEvent Emb → Bool)
    (e1 : TemporalEvent Emb) (cands : List (TemporalEvent Emb)) (upd : Updates) : Updates :=
  cands.foldl (recordStep oracle e1) upd

/-- The body of the per-primary loop (main.py lines 855-883): skip unless
DYNAMIC with `invalid_at` unset, then record the oracle-confirmed
candidates. -/
def primaryStep {Emb : Type} (simF : Emb → Emb → Bool)
    (oracle : TemporalEvent Emb → TemporalEvent Emb → Bool)
    (events' : List (TemporalEvent Emb)) (i : Nat) (e1 : TemporalEvent Emb)
    (upd : Updates) : Updates :=
  if e1.temporal_type = .DYNAMIC ∧ e1.invalid_at = none then
    if (candidatesFor simF events' i e1).isEmpty then upd
    else recordCands oracle e1 (candidatesFor simF events' i e1) upd
  else upd

def computeUpdatesAux {Emb : Type} (simF : Emb → Emb → Bool)
    (oracle : TemporalEvent Emb → TemporalEvent Emb → Bool)
    (events' : List (TemporalEvent Emb)) :
    Nat → List (TemporalEvent Emb) → Updates → Updates
  | _, [], upd => upd
  | i, e1 :: rest, upd =>
    computeUpdatesAux simF oracle events' (i + 1) rest (primaryStep simF oracle events' i e1 upd)

def computeUpdates {Emb : Type} (simF : Emb → Emb → Bool)
    (oracle : TemporalEvent Emb → TemporalEvent Emb → Bool)
    (events' : List (TemporalEvent Emb)) : Updates :=
  computeUpdatesAux simF oracle events' 0 events' []

/-- Apply pass (main.py lines 886-889). -/
def applyUpdates {Emb : Type} (upd : Updates) (events' : List (TemporalEvent Emb)) :
    List (TemporalEvent Emb) :=
  events'.map (fun e =>
    match dictLookup upd e.id with
    | some p => { e with invalid_at := some p.1, invalidated_by := some p.2 }
    | none => e)

/-- `invalidate_events_in_state` (main.py lines 845-891) on the event
list; the node mutates only `state["temporal_events"]`. -/
def invalidate_events_in_state {Emb : Type} (embed : String → Emb) (simF : Emb → Emb → Bool)
    (oracle : TemporalEvent Emb → TemporalEvent Emb → Bool)
    (events : List (TemporalEvent Emb)) : List (TemporalEvent Emb) :=
  applyUpdates (computeUpdates simF oracle (embedAll embed events)) (embedAll embed events)

/-- The running earliest-confirmed choice: fold of the comparison
`c.valid_at < updates[e1.id]["invalid_at"]`. -/
def pickEarliest (acc : Option (Nat × Nat)) : List (Nat × Nat) → Option (Nat × Nat)
  | [] => acc
  | p :: rest =>
    pickEarliest (match acc with
      | none => some p
      | some q => if p.1 < q.1 then some p else some q) rest

/-- `(valid_at, id)` pairs of a candidate list (dropping the impossible
`valid_at = none` candidates). -/
def pairsOf {Emb : Type} (l : List (TemporalEvent Emb)) : List (Nat × Nat) :=
  l.filterMap (fun c => c.valid_at.map (fun v => (v, c.id)))

/-- The `(valid_at, id)` pairs of the oracle-confirmed candidates, in
candidate order. -/
def confirmedPairs {Emb : Type} (oracle : TemporalEvent Emb → TemporalEvent Emb → Bool)
    (e1 : TemporalEvent Emb) (cands : List (TemporalEvent Emb)) : List (Nat × Nat) :=
  pairsOf (cands.filter (fun c => oracle e1 c))

/-! ## Graph assembly (`build_graph_from_state`, main.py lines 935-992) -/

abbrev EdgeKey := Nat × Nat × String

/-- The attribute dict attached to an edge (main.py lines 979-984). -/
structure EdgeAttrs where
  predicate : String
  value : Option String
  statement : String
  valid_at : Option Nat
  invalid_at : Option Nat
  statement_type : StatementType
deriving DecidableEq, Repr

/-- A `networkx.MultiDiGraph` restricted to the operations the source
uses: nodes keyed by id (with the entity's attributes) and edges keyed by
`(u, v, key)`, each carrying one attribute dict. -/
structure KGraph where
  nodes : List (Nat × Entity)
  edges : List (EdgeKey × EdgeAttrs)
deriving DecidableEq, Repr

/-- `entity_map = {entity.id: entity for entity in entities}`. -/
def entityMapOf (entities : List Entity) : List (Nat × Entity) :=
  entities.foldl (fun m e => dictInsert m e.id e) []

/-- `canonical_ids = {e.resolved_id if e.resolved_id else e.id for e in
entities}` — a Python set; modelled as first-occurrence dedup (same
membership, deterministic order). -/
def canonicalIdsOf (entities : List Entity) : List Nat :=
  firstDedup (entities.map (fun e =>
    match e.resolved_id with
    | some r => r
    | none => e.id))

/-- Node construction (main.py lines 950-961): one node per canonical id
whose entity object is found in `entity_map`. -/
def nodesOf (entities : List Entity) : List (Nat × Entity) :=
  (canonicalIdsOf entities).filterMap
    (fun cid => (dictLookup (entityMapOf entities) cid).map (fun ent => (cid, ent)))

/-- `graph.has_node`. -/
def hasNodeL (nodes : List (Nat × Entity)) (cid : Nat) : Bool :=
  nodes.any (fun p => p.1 == cid)

/-- `next((ev for ev in temporal_events if triplet.id in ev.triplets),
None)` (main.py line 970). -/
def parentEventOf {Emb : Type} (events : List (TemporalEvent Emb)) (t : Triplet) :
    Option (TemporalEvent Emb) :=
  events.find? (fun ev => ev.triplets.contains t.id)

/-- The attestation attached to the edge (main.py lines 979-984). -/
def attrsOf {Emb : Type} (t : Triplet) (ev : TemporalEvent Emb) : EdgeAttrs :=
  ⟨t.predicate.value, t.value, ev.statement, ev.valid_at, ev.invalid_at, ev.statement_type⟩

/-- `MultiDiGraph.add_edge(u, v, key=k, **attrs)`: if an edge `(u, v, k)`
already exists its attribute dict is updated (here: fully overwritten,
since every attribute is supplied); otherwise a new edge is appended. -/
def addEdgeMDG (g : KGraph) (u v : Nat) (k : String) (a : EdgeAttrs) : KGraph :=
  { g with edges := dictInsert g.edges (u, v, k) a }

/-- The per-triplet edge step (main.py lines 968-989): skip triplets with
no owning event, skip when either endpoint has no node. -/
def addTriplet {Emb : Type} (events : List (TemporalEvent Emb)) (g : KGraph)
    (t : Triplet) : KGraph :=
  match parentEventOf events t with
  | none => g
  | some ev =>
    if hasNodeL g.nodes t.subject_id ∧ hasNodeL g.nodes t.object_id then
      addEdgeMDG g t.subject_id t.object_id t.predicate.value (attrsOf t ev)
    else g

/-- `build_graph_from_state` (main.py lines 935-992). -/
def build_graph_from_state {Emb : Type} (st : RState Emb) : KGraph :=
  st.triplets.foldl (addTriplet st.temporal_events)
    { nodes := nodesOf st.entities, edges := [] }

/-- Whether the edge-adding step fires for a triplet (the node set is fixed
during the edge loop). -/
def contributes {Emb : Type} (events : List (TemporalEvent Emb))
    (nodes : List (Nat × Entity)) (t : Triplet) : Bool :=
  (parentEventOf events t).isSome && hasNodeL nodes t.subject_id
    && hasNodeL nodes t.object_id

def edgeKeyOf (t : Triplet) : EdgeKey := (t.subject_id, t.object_id, t.predicate.value)

/-- The attestation a triplet would attach (its owning event's data). -/
def attestOf {Emb : Type} (events : List (TemporalEvent Emb)) (t : Triplet) :
    Option EdgeAttrs :=
  (parentEventOf events t).map (attrsOf t)


/-- Concrete events exercising the invalidation theorems: an open DYNAMIC
event and a later STATIC fact. -/
def wEvDyn : TemporalEvent Nat :=
  ⟨1, 0, "Lisa Su is CEO", 0, .FACT, .DYNAMIC, some 10, none, [], 0, none, none⟩

def wEvFact : TemporalEvent Nat :=
  ⟨2, 0, "Someone else became CEO", 0, .FACT, .STATIC, some 20, none, [], 0, none, none⟩

def wEvStatic : TemporalEvent Nat :=
  ⟨3, 0, "revenue grew", 0, .FACT, .STATIC, some 5, none, [], 0, none, none⟩

def wEvents : List (TemporalEvent Nat) := [wEvDyn, wEvFact]


/-- Concrete state for exercising the frame theorem. -/
def wState : RState Nat :=
  { entities := [⟨1, "AMD", "Organization", "chipmaker", none⟩],
    triplets := [⟨10, "AMD", 1, .IS_A, "Company", 1, none⟩],
    temporal_events := [] }


/-- Concrete state with two triplets sharing the same edge key, owned by
different events carrying different attestations. -/
def cState : RState Nat :=
  { entities := [⟨1, "AMD", "Organization", "", none⟩, ⟨2, "Radeon", "Product", "", none⟩],
    triplets :=
      [⟨10, "AMD", 1, .PRODUCES, "Radeon", 2, none⟩,
       ⟨11, "AMD", 1, .PRODUCES, "Radeon", 2, none⟩],
    temporal_events :=
      [⟨100, 0, "s1", 0, .FACT, .STATIC, some 1, none, [10], 0, none, none⟩,
       ⟨101, 0, "s2", 0, .FACT, .STATIC, some 2, none, [11], 0, none, none⟩] }

/-- Concrete state whose single triplet was resolved to a canonical id
taken from the persistent store (no batch entity has id 99). -/
def wState10 : RState Nat :=
  { entities := [⟨1, "AMD", "Organization", "", some 99⟩],
    triplets := [⟨10, "AMD", 99, .IS_A, "Company", 99, none⟩],
    temporal_events := [⟨100, 0, "s", 0, .FACT, .STATIC, some 1, none, [10], 0, none, none⟩] }

/-! ## Theorems -/

theorem dictLookup_insert_self {κ α : Type} [DecidableEq κ] (l : List (κ × α)) (k : κ) (v : α) :
    dictLookup (dictInsert l k v) k = some v := by
  induction l with
  | nil => simp [dictInsert, dictLookup]
  | cons p rest ih =>
    by_cases h : p.1 = k
    · simp [dictInsert, dictLookup, h]
    · simp [dictInsert, dictLookup, h, ih]

theorem dictLookup_insert_other {κ α : Type} [DecidableEq κ] (l : List (κ × α)) (k k' : κ) (v : α)
    (hne : k' ≠ k) : dictLookup (dictInsert l k v) k' = dictLookup l k' := by
  have hkk : ¬ k = k' := fun h => hne h.symm
  induction l with
  | nil => simp [dictInsert, dictLookup, hkk]
  | cons p rest ih =>
    by_cases h : p.1 = k
    · have hp : ¬ p.1 = k' := by rw [h]; exact hkk
      simp [dictInsert, if_pos h, dictLookup, hkk, hp]
    · simp only [dictInsert, if_neg h]
      by_cases h' : p.1 = k'
      · simp [dictLookup, h']
      · simp [dictLookup, h', ih]

theorem dictLookup_mem {κ α : Type} [DecidableEq κ] {l : List (κ × α)} {k : κ} {v : α}
    (h : dictLookup l k = some v) : (k, v) ∈ l := by
  induction l with
  | nil => simp [dictLookup] at h
  | cons p rest ih =>
    rcases p with ⟨pk, pv⟩
    by_cases hp : pk = k
    · subst hp
      simp only [dictLookup, if_pos rfl] at h
      cases h
      exact List.mem_cons_self _ _
    · simp only [dictLookup] at h
      rw [if_neg hp] at h
      exact List.mem_cons_of_mem _ (ih h)

theorem dictLookup_append {κ α : Type} [DecidableEq κ] (l₁ l₂ : List (κ × α)) (k : κ) :
    dictLookup (l₁ ++ l₂) k =
      match dictLookup l₁ k with
      | some v => some v
      | none => dictLookup l₂ k := by
  induction l₁ with
  | nil => simp [dictLookup]
  | cons p rest ih =>
    by_cases h : p.1 = k
    · simp [dictLookup, h]
    · simp [dictLookup, h, ih]

theorem dictInsert_mem {κ α : Type} [DecidableEq κ] {l : List (κ × α)} {k : κ} {v : α}
    {p : κ × α} (h : p ∈ dictInsert l k v) : p = (k, v) ∨ p ∈ l := by
  induction l with
  | nil => simpa [dictInsert] using h
  | cons q rest ih =>
    by_cases hq : q.1 = k
    · simp only [dictInsert, if_pos hq, List.mem_cons] at h
      rcases h with h | h
      · exact Or.inl h
      · exact Or.inr (List.mem_cons_of_mem _ h)
    · simp only [dictInsert, if_neg hq, List.mem_cons] at h
      rcases h with h | h
      · exact Or.inr (by simp [h])
      · rcases ih h with h' | h'
        · exact Or.inl h'
        · exact Or.inr (List.mem_cons_of_mem _ h')

/-! ### Claim C8: date parsing -/

/-- Claim C8 fails as stated: the bare 4-digit year string `"0000"` does not
parse to January 1st UTC of year 0 — `datetime(0, 1, 1, ...)` raises
`ValueError` (`MINYEAR` is 1), the `except` swallows it, and the result is
`None`. -/
theorem claim8_counterexample :
    parse_date_str (fun _ => none) (some "0000") = none ∧
    parse_date_str (fun _ => none) (some "0000") ≠ some (utcJan1 0) := by
  refine ⟨rfl, ?_⟩
  intro h
  rw [show parse_date_str (fun _ => none) (some "0000") = none from rfl] at h
  exact Option.noConfusion h

/-- Claim C8 (amended): date parsing maps `None`, empty, and unparseable
date strings to `None` and never raises; a bare 4-digit year string parses
to January 1st UTC of that year when the year is within `datetime`'s
supported range (at least 1), and yields `None` for year `0000`; any other
parseable string yields a timezone-aware datetime with UTC attached when
the input carries no timezone. -/
theorem claim8_amended (dparse : String → Option PDateTime) :
    parse_date_str dparse none = none ∧
    parse_date_str dparse (some "") = none ∧
    (∀ s, s ≠ "" → isFourDigits (pyStrip s) = false → dparse s = none →
      parse_date_str dparse (some s) = none) ∧
    (∀ s, s ≠ "" → isFourDigits (pyStrip s) = true →
      (1 ≤ digitsToNat (pyStrip s) → digitsToNat (pyStrip s) ≤ 9999 →
        parse_date_str dparse (some s) = some (utcJan1 (digitsToNat (pyStrip s)))) ∧
      (digitsToNat (pyStrip s) = 0 → parse_date_str dparse (some s) = none)) ∧
    (∀ s dt, s ≠ "" → isFourDigits (pyStrip s) = false → dparse s = some dt →
      parse_date_str dparse (some s) = some (withUTCIfNaive dt) ∧
      (withUTCIfNaive dt).tzoffset.isSome = true ∧
      (dt.tzoffset = none → withUTCIfNaive dt = { dt with tzoffset := some 0 })) := by
  refine ⟨rfl, rfl, ?_, ?_, ?_⟩
  · intro s hs h4 hd
    simp [parse_date_str, hs, h4, hd]
  · intro s hs h4
    constructor
    · intro hy1 hy2
      simp only [parse_date_str, if_neg hs, h4, if_true, datetimeJan1UTC]
      rw [if_pos ⟨hy1, hy2⟩]
    · intro hy0
      simp only [parse_date_str, if_neg hs, h4, if_true, datetimeJan1UTC]
      rw [if_neg (by omega)]
  · intro s dt hs h4 hd
    refine ⟨by simp [parse_date_str, hs, h4, hd], ?_, ?_⟩
    · unfold withUTCIfNaive
      cases hoz : dt.tzoffset <;> simp [hoz]
    · intro hn
      unfold withUTCIfNaive
      rw [hn]

/-- Witness for the amended claim C8 at concrete inputs: `"2023"` parses to
2023-01-01T00:00:00Z and `"bogus"` (with a failing `dateutil` parse) to
`None`. -/
theorem claim8_witness :
    parse_date_str (fun _ => none) (some "2023") = some (utcJan1 2023) ∧
    parse_date_str (fun _ => none) (some "bogus") = none := by
  have h := claim8_amended (fun _ => none)
  have hv : digitsToNat (pyStrip "2023") = 2023 := rfl
  refine ⟨?_, h.2.2.1 "bogus" (by decide) rfl rfl⟩
  have h4 := (h.2.2.2.1 "2023" (by decide) rfl).1 (by rw [hv]; norm_num) (by rw [hv]; norm_num)
  rw [hv] at h4
  exact h4

theorem dictLookup_map_value {κ α β : Type} [DecidableEq κ] (g : α → β) (l : List (κ × α))
    (k : κ) : dictLookup (l.map (fun p => (p.1, g p.2))) k = (dictLookup l k).map g := by
  induction l with
  | nil => simp [dictLookup]
  | cons p rest ih =>
    by_cases h : p.1 = k
    · simp [dictLookup, h]
    · simp [dictLookup, h, ih]

theorem find?_congr_mem {α : Type} (p q : α → Bool) :
    ∀ l : List α, (∀ a ∈ l, p a = q a) → l.find? p = l.find? q := by
  intro l
  induction l with
  | nil => intro _; rfl
  | cons a rest ih =>
    intro h
    have ha := h a (List.mem_cons_self _ _)
    by_cases hp : p a = true
    · rw [List.find?_cons_of_pos _ hp, List.find?_cons_of_pos _ (ha ▸ hp)]
    · have hq : ¬ q a = true := fun hh => hp (ha ▸ hh)
      rw [List.find?_cons_of_neg _ hp, List.find?_cons_of_neg _ hq]
      exact ih (fun x hx => h x (List.mem_cons_of_mem _ hx))

theorem selFold_mem {α β : Type} [LinearOrder β] (f : α → β) :
    ∀ (l : List α) (q : α), selFold f q l = q ∨ selFold f q l ∈ l := by
  intro l
  induction l with
  | nil => intro q; exact Or.inl rfl
  | cons b rest ih =>
    intro q
    rw [selFold]
    rcases ih (if f q < f b then b else q) with h | h
    · rw [h]
      by_cases hc : f q < f b
      · rw [if_pos hc]; exact Or.inr (List.mem_cons_self _ _)
      · rw [if_neg hc]; exact Or.inl rfl
    · exact Or.inr (List.mem_cons_of_mem _ h)

theorem selFold_max {α β : Type} [LinearOrder β] (f : α → β) :
    ∀ (l : List α) (q : α), f q ≤ f (selFold f q l) ∧ ∀ x ∈ l, f x ≤ f (selFold f q l) := by
  intro l
  induction l with
  | nil => intro q; exact ⟨le_refl _, by intro x hx; cases hx⟩
  | cons b rest ih =>
    intro q
    rw [selFold]
    rcases ih (if f q < f b then b else q) with ⟨h1, h2⟩
    have hq : f q ≤ f (if f q < f b then b else q) := by
      by_cases hc : f q < f b
      · rw [if_pos hc]; exact le_of_lt hc
      · rw [if_neg hc]
    have hb : f b ≤ f (if f q < f b then b else q) := by
      by_cases hc : f q < f b
      · rw [if_pos hc]
      · rw [if_neg hc]; exact le_of_not_lt hc
    refine ⟨le_trans hq h1, ?_⟩
    intro x hx
    rcases List.mem_cons.mp hx with h | h
    · rw [h]; exact le_trans hb h1
    · exact h2 x h

theorem selFold_first {α β : Type} [LinearOrder β] (f : α → β) :
    ∀ (l : List α) (q : α),
      (q :: l).find? (fun x => decide (f x = f (selFold f q l))) = some (selFold f q l) := by
  intro l
  induction l with
  | nil =>
    intro q
    rw [selFold]
    exact List.find?_cons_of_pos _ (by simp)
  | cons b rest ih =>
    intro q
    rw [selFold]
    rcases selFold_max f rest (if f q < f b then b else q) with ⟨hm1, _⟩
    by_cases hqr : f q = f (selFold f (if f q < f b then b else q) rest)
    · -- the head already attains the selected value, so it must be the winner
      have hqq : ¬ f q < f b := by
        intro hc
        rw [if_pos hc] at hm1 hqr
        exact absurd (lt_of_lt_of_le hc hm1) (by rw [hqr]; exact lt_irrefl _)
      rw [if_neg hqq] at hm1 hqr ⊢
      have := ih q
      rw [List.find?_cons_of_pos _ (by simp [hqr])] at this
      have hq_eq : q = selFold f q rest := Option.some.inj this
      rw [List.find?_cons_of_pos _ (by simp [hqr])]
      rw [← hq_eq]
    · rw [List.find?_cons_of_neg _ (by simp [hqr])]
      by_cases hc : f q < f b
      · rw [if_pos hc] at hm1 hqr ⊢
        exact ih b
      · rw [if_neg hc] at hm1 hqr ⊢
        have := ih q
        rw [List.find?_cons_of_neg _ (by simp [hqr])] at this
        have hbr : ¬ f b = f (selFold f q rest) := by
          intro hb
          exact hqr (le_antisymm hm1 (hb ▸ le_of_not_lt hc))
        rw [List.find?_cons_of_neg _ (by simp [hbr])]
        exact this

theorem perm_cons_removeFirst {α : Type} [DecidableEq α] {x : α} :
    ∀ {l : List α}, x ∈ l → l.Perm (x :: removeFirst l x) := by
  intro l
  induction l with
  | nil => intro h; cases h
  | cons a rest ih =>
    intro h
    rw [removeFirst]
    by_cases ha : a = x
    · rw [if_pos ha, ha]
    · rw [if_neg ha]
      have hx : x ∈ rest := by
        rcases List.mem_cons.mp h with h' | h'
        · exact absurd h'.symm ha
        · exact h'
      exact ((ih hx).cons a).trans (List.Perm.swap x a (removeFirst rest x))

theorem nameScore_eq_self_add_othersScore (sim : String → String → ℚ) (K : ℚ)
    (hself : ∀ s, sim s s = K) (cluster : List Mention) (x : Mention) (hx : x ∈ cluster) :
    nameScore sim cluster x.2 = K + othersScore sim cluster x := by
  have hperm : cluster.Perm (x :: removeFirst cluster x) := perm_cons_removeFirst hx
  have hmap := hperm.map (fun o => sim x.2.name.toLower o.2.name.toLower)
  have := hmap.sum_eq
  rw [nameScore, othersScore, this, List.map_cons, List.sum_cons, hself]

/-! ### Claim C6: medoid selection -/

/-- Claim C6: for every cluster, the medoid is the member whose summed
symmetric similarity against all other cluster members is maximal (the
source sums over the whole cluster, but self-similarity is the constant
`sim s s = K`, so the two rankings agree), ties broken by the earliest
member; the choice is a pure function of the cluster, and the medoid's name
becomes the cluster's canonical name. -/
theorem claim6_medoid_maximizes (sim : String → String → ℚ) (K : ℚ)
    (hself : ∀ s, sim s s = K) (cluster : List Mention) (hne : cluster ≠ []) :
    ∃ m, medoid sim cluster = some m ∧ m ∈ cluster ∧
      (∀ x ∈ cluster, othersScore sim cluster x ≤ othersScore sim cluster m) ∧
      cluster.find? (fun x => decide (othersScore sim cluster x = othersScore sim cluster m))
        = some m ∧
      canonicalNameOf sim cluster = some m.2.name := by
  match cluster, hne with
  | a :: rest, _ =>
    have hK : ∀ s, sim (String.toLower s) (String.toLower s) = K := fun s => hself _
    set f : Mention → ℚ := fun p => nameScore sim (a :: rest) p.2 with hf
    set m := selFold f a rest with hm
    have hmed : medoid sim (a :: rest) = some m := rfl
    have hmem : m ∈ a :: rest := by
      rcases selFold_mem f rest a with h | h
      · rw [hm, h]; exact List.mem_cons_self _ _
      · rw [hm]; exact List.mem_cons_of_mem _ h
    have hscore : ∀ x ∈ a :: rest, f x = K + othersScore sim (a :: rest) x := by
      intro x hx
      exact nameScore_eq_self_add_othersScore sim K hself _ x hx
    have hmax : ∀ x ∈ a :: rest, f x ≤ f m := by
      intro x hx
      rcases List.mem_cons.mp hx with h | h
      · rw [h]; exact (selFold_max f rest a).1
      · exact (selFold_max f rest a).2 x h
    refine ⟨m, hmed, hmem, ?_, ?_, rfl⟩
    · intro x hx
      have hle := hmax x hx
      rw [hscore x hx, hscore m hmem] at hle
      linarith
    · have hfind := selFold_first f rest a
      have hcong : (a :: rest).find?
            (fun x => decide (othersScore sim (a :: rest) x = othersScore sim (a :: rest) m))
          = (a :: rest).find? (fun x => decide (f x = f m)) := by
        apply find?_congr_mem
        intro x hx
        apply decide_eq_decide.mpr
        rw [hscore x hx, hscore m hmem]
        constructor
        · intro h; rw [h]
        · intro h; exact add_left_cancel h
      rw [hcong]
      exact hfind

/-- Witness for claim C6 at a concrete two-mention cluster with the
constant similarity function. -/
theorem claim6_witness :
    ∃ m, medoid (fun _ _ => (100 : ℚ)) wCluster = some m ∧ m ∈ wCluster ∧
      (∀ x ∈ wCluster,
        othersScore (fun _ _ => (100 : ℚ)) wCluster x ≤
          othersScore (fun _ _ => (100 : ℚ)) wCluster m) ∧
      wCluster.find? (fun x => decide (othersScore (fun _ _ => (100 : ℚ)) wCluster x
        = othersScore (fun _ _ => (100 : ℚ)) wCluster m)) = some m ∧
      canonicalNameOf (fun _ _ => (100 : ℚ)) wCluster = some m.2.name :=
  claim6_medoid_maximizes (fun _ _ => (100 : ℚ)) 100 (fun _ => rfl) wCluster
    (by rw [wCluster]; exact List.cons_ne_nil _ _)

/-! ### Clustering partition lemmas (claim C7) -/

theorem buildClusters_flatten_perm (pr : String → String → ℚ) :
    ∀ l : List Mention, ((buildClusters pr l).flatten).Perm l
  | [] => by simp [buildClusters]
  | a :: rest => by
    rw [buildClusters, List.flatten_cons, List.cons_append]
    apply List.Perm.cons
    have ihp := buildClusters_flatten_perm pr
      (rest.filter (fun b => ! decide (80 ≤ pr a.2.name.toLower b.2.name.toLower)))
    exact (List.Perm.append_left _ ihp).trans (List.filter_append_perm _ rest)
termination_by l => l.length
decreasing_by
  simp only [List.length_cons]
  exact Nat.lt_succ_of_le (List.length_filter_le _ _)

theorem buildClusters_subset (pr : String → String → ℚ) :
    ∀ l : List Mention, ∀ c ∈ buildClusters pr l, ∀ x ∈ c, x ∈ l
  | [] => by simp [buildClusters]
  | a :: rest => by
    intro c hc x hx
    rw [buildClusters] at hc
    rcases List.mem_cons.mp hc with h | h
    · subst h
      rcases List.mem_cons.mp hx with h' | h'
      · rw [h']; exact List.mem_cons_self _ _
      · exact List.mem_cons_of_mem _ (List.mem_of_mem_filter h')
    · have hm := buildClusters_subset pr
        (rest.filter (fun b => ! decide (80 ≤ pr a.2.name.toLower b.2.name.toLower))) c h x hx
      exact List.mem_cons_of_mem _ (List.mem_of_mem_filter hm)
termination_by l => l.length
decreasing_by
  simp only [List.length_cons]
  exact Nat.lt_succ_of_le (List.length_filter_le _ _)

theorem buildClusters_ne_nil (pr : String → String → ℚ) :
    ∀ l : List Mention, ∀ c ∈ buildClusters pr l, c ≠ []
  | [] => by simp [buildClusters]
  | a :: rest => by
    intro c hc
    rw [buildClusters] at hc
    rcases List.mem_cons.mp hc with h | h
    · subst h; exact List.cons_ne_nil _ _
    · exact buildClusters_ne_nil pr
        (rest.filter (fun b => ! decide (80 ≤ pr a.2.name.toLower b.2.name.toLower))) c h
termination_by l => l.length
decreasing_by
  simp only [List.length_cons]
  exact Nat.lt_succ_of_le (List.length_filter_le _ _)

theorem mem_firstDedup {α : Type} [DecidableEq α] :
    ∀ (l : List α) (x : α), x ∈ firstDedup l ↔ x ∈ l
  | [] => by simp [firstDedup]
  | a :: rest => by
    intro x
    rw [firstDedup]
    have ihr := mem_firstDedup (rest.filter (fun b => decide (b ≠ a)))
    constructor
    · intro h
      rcases List.mem_cons.mp h with h' | h'
      · rw [h']; exact List.mem_cons_self _ _
      · exact List.mem_cons_of_mem _ (List.mem_of_mem_filter ((ihr x).mp h'))
    · intro h
      by_cases hxa : x = a
      · rw [hxa]; exact List.mem_cons_self _ _
      · rcases List.mem_cons.mp h with h' | h'
        · exact absurd h' hxa
        · exact List.mem_cons_of_mem _ ((ihr x).mpr
            (List.mem_filter.mpr ⟨h', by simp [hxa]⟩))
termination_by l => l.length
decreasing_by
  simp only [List.length_cons]
  exact Nat.lt_succ_of_le (List.length_filter_le _ _)

theorem firstDedup_nodup {α : Type} [DecidableEq α] : ∀ l : List α, (firstDedup l).Nodup
  | [] => by simp [firstDedup]
  | a :: rest => by
    rw [firstDedup, List.nodup_cons]
    refine ⟨?_, firstDedup_nodup (rest.filter (fun b => decide (b ≠ a)))⟩
    intro hmem
    have := List.mem_filter.mp ((mem_firstDedup _ a).mp hmem)
    simp at this
termination_by l => l.length
decreasing_by
  simp only [List.length_cons]
  exact Nat.lt_succ_of_le (List.length_filter_le _ _)

theorem flatten_map_perm {α β : Type} (f g : β → List α) :
    ∀ keys : List β, (∀ t ∈ keys, (f t).Perm (g t)) →
      ((keys.map f).flatten).Perm ((keys.map g).flatten) := by
  intro keys
  induction keys with
  | nil => intro _; simp
  | cons t rest ih =>
    intro h
    rw [List.map_cons, List.map_cons, List.flatten_cons, List.flatten_cons]
    exact (h t (List.mem_cons_self _ _)).append
      (ih (fun t' ht' => h t' (List.mem_cons_of_mem _ ht')))

theorem flatten_of_flatten {α : Type} :
    ∀ A : List (List (List α)), (A.flatten).flatten = (A.map List.flatten).flatten := by
  intro A
  induction A with
  | nil => rfl
  | cons x rest ih => simp [List.flatten_append, ih]

theorem filter_partition_perm {α : Type} (key : α → String) :
    ∀ (keys : List String) (l : List α), keys.Nodup → (∀ x ∈ l, key x ∈ keys) →
      ((keys.map (fun t => l.filter (fun x => key x == t))).flatten).Perm l := by
  intro keys
  induction keys with
  | nil =>
    intro l _ hcov
    have hl : l = [] := by
      cases l with
      | nil => rfl
      | cons x xs => exact absurd (hcov x (List.mem_cons_self _ _)) (List.not_mem_nil _)
    rw [hl]
    exact List.Perm.nil
  | cons t rest ih =>
    intro l hnd hcov
    rw [List.map_cons, List.flatten_cons]
    have hsub : rest.map (fun t' => l.filter (fun x => key x == t'))
        = rest.map (fun t' =>
            (l.filter (fun x => ! (key x == t))).filter (fun x => key x == t')) := by
      apply List.map_congr_left
      intro t' ht'
      rw [List.filter_filter]
      apply List.filter_congr
      intro x _
      by_cases h : key x = t'
      · have hne : t' ≠ t := fun he => (List.nodup_cons.mp hnd).1 (he ▸ ht')
        simp [h, hne]
      · simp [h]
    rw [hsub]
    have ihp := ih (l.filter (fun x => ! (key x == t))) (List.nodup_cons.mp hnd).2 ?_
    · exact (List.Perm.append_left _ ihp).trans (List.filter_append_perm _ l)
    · intro x hx
      rcases List.mem_filter.mp hx with ⟨hxl, hxt⟩
      simp only [Bool.not_eq_true', beq_eq_false_iff_ne] at hxt
      rcases List.mem_cons.mp (hcov x hxl) with h | h
      · exact absurd h hxt
      · exact h

theorem clustersFor_flatten_perm (pr : String → String → ℚ) (entities : List Entity) :
    ((clustersFor pr entities).flatten).Perm entities.enum := by
  rw [clustersFor, flatten_of_flatten, List.map_map]
  have h1 : ((typeKeys entities).map
      (List.flatten ∘ fun t => buildClusters pr (typeGroup entities t))).flatten.Perm
      (((typeKeys entities).map (fun t => typeGroup entities t)).flatten) := by
    apply flatten_map_perm
    intro t _
    exact buildClusters_flatten_perm pr (typeGroup entities t)
  refine h1.trans ?_
  simp only [typeGroup]
  exact filter_partition_perm (fun p => p.2.type) (typeKeys entities) entities.enum
    (firstDedup_nodup _)
    (fun x hx => by
      rw [typeKeys, mem_firstDedup]
      exact List.mem_map_of_mem (fun e => e.type) (List.snd_mem_of_mem_enum hx))

theorem clustersFor_ne_nil (pr : String → String → ℚ) (entities : List Entity) :
    ∀ c ∈ clustersFor pr entities, c ≠ [] := by
  intro c hc
  rw [clustersFor, List.mem_flatten] at hc
  rcases hc with ⟨sub, hsub, hcsub⟩
  rcases List.mem_map.mp hsub with ⟨t, _, rfl⟩
  exact buildClusters_ne_nil pr (typeGroup entities t) c hcsub

theorem medoid_of_ne_nil (sim : String → String → ℚ) (c : List Mention) (h : c ≠ []) :
    ∃ m, medoid sim c = some m := by
  match c, h with
  | a :: rest, _ => exact ⟨selFold (fun p => nameScore sim (a :: rest) p.2) a rest, rfl⟩

theorem processClusters_fst (sim : String → String → ℚ) (store : List (String × Nat)) :
    ∀ (cs : List (List Mention)) (nm : List (String × Entity)), (∀ c ∈ cs, c ≠ []) →
      (processClusters sim store nm cs).1.map Prod.fst = cs := by
  intro cs
  induction cs with
  | nil => intro nm _; rfl
  | cons c rest ih =>
    intro nm hne
    rcases medoid_of_ne_nil sim c (hne c (List.mem_cons_self _ _)) with ⟨m, hm⟩
    simp only [processClusters, hm]
    rw [List.map_cons]
    exact congrArg (c :: ·) (ih _ (fun c' hc' => hne c' (List.mem_cons_of_mem _ hc')))

theorem mentionAssignment_map_fst (pairs : List (List Mention × Nat)) :
    (mentionAssignment pairs).map Prod.fst = (pairs.map Prod.fst).flatten := by
  induction pairs with
  | nil => rfl
  | cons p rest ih =>
    show ((p.1.map (fun q => (q, p.2)) ++ mentionAssignment rest).map Prod.fst)
        = ((p :: rest).map Prod.fst).flatten
    rw [List.map_append, ih, List.map_cons, List.flatten_cons]
    congr 1
    rw [List.map_map]
    exact List.map_id _

/-! ### Claim C7: resolution is a typed partition -/

/-- Claim C7: for every input entity list, every mention appears in exactly
one cluster (the clusters' concatenation is a permutation of the indexed
mention list), no two mentions of different `type` share a cluster, and the
per-cluster canonical-id assignment touches every mention exactly once. -/
theorem claim7_partition (pr sim : String → String → ℚ) (store : List (String × Nat))
    (entities : List Entity) :
    ((clustersFor pr entities).flatten).Perm entities.enum ∧
    (∀ c ∈ clustersFor pr entities, ∀ x ∈ c, ∀ y ∈ c, x.2.type = y.2.type) ∧
    ((mentionAssignment (processClusters sim store [] (clustersFor pr entities)).1).map
      Prod.fst).Perm entities.enum := by
  refine ⟨clustersFor_flatten_perm pr entities, ?_, ?_⟩
  · intro c hc x hx y hy
    rw [clustersFor, List.mem_flatten] at hc
    rcases hc with ⟨sub, hsub, hcsub⟩
    rcases List.mem_map.mp hsub with ⟨t, _, rfl⟩
    have hxg := buildClusters_subset pr (typeGroup entities t) c hcsub x hx
    have hyg := buildClusters_subset pr (typeGroup entities t) c hcsub y hy
    rw [typeGroup] at hxg hyg
    have hxt := (List.mem_filter.mp hxg).2
    have hyt := (List.mem_filter.mp hyg).2
    rw [beq_iff_eq] at hxt hyt
    rw [hxt, hyt]
  · rw [mentionAssignment_map_fst,
      processClusters_fst sim store _ [] (clustersFor_ne_nil pr entities)]
    exact clustersFor_flatten_perm pr entities

/-! ### Claim C5: canonical-id precedence and reuse -/

theorem processClusters_nm_monotone (sim : String → String → ℚ) (store : List (String × Nat)) :
    ∀ (cs : List (List Mention)) (nm : List (String × Entity)) (n : String) (e : Entity),
      dictLookup nm n = some e →
      dictLookup (processClusters sim store nm cs).2 n = some e := by
  intro cs
  induction cs with
  | nil => intro nm n e h; exact h
  | cons c rest ih =>
    intro nm n e h
    cases hm : medoid sim c with
    | none =>
      have hstep : processClusters sim store nm (c :: rest)
          = processClusters sim store nm rest := by
        rw [processClusters, hm]
      rw [hstep]
      exact ih nm n e h
    | some m =>
      have hstep : (processClusters sim store nm (c :: rest)).2
          = (processClusters sim store (assignCluster store nm m.2).2 rest).2 := by
        rw [processClusters, hm]
      rw [hstep]
      apply ih
      rw [assignCluster]
      cases hs : dictLookup store m.2.name with
      | some cid => exact h
      | none =>
        cases hn : dictLookup nm m.2.name with
        | some e' => exact h
        | none =>
          have hne : n ≠ m.2.name := by
            intro he
            rw [he, hn] at h
            cases h
          rw [dictLookup_insert_other _ _ _ _ hne]
          exact h

theorem processClusters_rerun (sim : String → String → ℚ) (store : List (String × Nat)) :
    ∀ (cs : List (List Mention)) (nm : List (String × Entity)),
      processClusters sim
        (store ++ ((processClusters sim store nm cs).2.map (fun p => (p.1, p.2.id)))) [] cs
      = ((processClusters sim store nm cs).1, []) := by
  intro cs
  induction cs with
  | nil => intro nm; rfl
  | cons c rest ih =>
    intro nm
    cases hm : medoid sim c with
    | none =>
      have h1 : processClusters sim store nm (c :: rest)
          = processClusters sim store nm rest := by
        rw [processClusters, hm]
      rw [h1]
      have h2 : ∀ st2 : List (String × Nat), processClusters sim st2 [] (c :: rest)
          = processClusters sim st2 [] rest := by
        intro st2
        rw [processClusters, hm]
      rw [h2]
      exact ih nm
    | some m =>
      have hrun1 : processClusters sim store nm (c :: rest)
          = ((c, (assignCluster store nm m.2).1) ::
               (processClusters sim store (assignCluster store nm m.2).2 rest).1,
             (processClusters sim store (assignCluster store nm m.2).2 rest).2) := by
        rw [processClusters, hm]
      rw [hrun1]
      set nm' := (assignCluster store nm m.2).2 with hnm'
      set qF := (processClusters sim store nm' rest).2 with hqF
      set store2 := store ++ (qF.map (fun p => (p.1, p.2.id))) with hstore2
      have hassign : assignCluster store2 [] m.2 = ((assignCluster store nm m.2).1, []) := by
        cases hs : dictLookup store m.2.name with
        | some cid =>
          have hA : assignCluster store nm m.2 = (cid, nm) := by rw [assignCluster, hs]
          have hl2 : dictLookup store2 m.2.name = some cid := by
            rw [hstore2, dictLookup_append, hs]
          have hB : assignCluster store2 [] m.2 = (cid, []) := by rw [assignCluster, hl2]
          rw [hA, hB]
        | none =>
          cases hn : dictLookup nm m.2.name with
          | some e =>
            have hA : assignCluster store nm m.2 = (e.id, nm) := by
              rw [assignCluster, hs, hn]
            have hnm'eq : nm' = nm := by rw [hnm', hA]
            have hq : dictLookup qF m.2.name = some e := by
              rw [hqF]
              exact processClusters_nm_monotone sim store rest nm' _ _
                (by rw [hnm'eq]; exact hn)
            have hl2 : dictLookup store2 m.2.name = some e.id := by
              rw [hstore2, dictLookup_append, hs, dictLookup_map_value, hq]
              rfl
            have hB : assignCluster store2 [] m.2 = (e.id, []) := by
              rw [assignCluster, hl2]
            rw [hA, hB]
          | none =>
            have hA : assignCluster store nm m.2 = (m.2.id, dictInsert nm m.2.name m.2) := by
              rw [assignCluster, hs, hn]
            have hnm'eq : nm' = dictInsert nm m.2.name m.2 := by rw [hnm', hA]
            have hq : dictLookup qF m.2.name = some m.2 := by
              rw [hqF]
              exact processClusters_nm_monotone sim store rest nm' _ _
                (by rw [hnm'eq]; exact dictLookup_insert_self _ _ _)
            have hl2 : dictLookup store2 m.2.name = some m.2.id := by
              rw [hstore2, dictLookup_append, hs, dictLookup_map_value, hq]
              rfl
            have hB : assignCluster store2 [] m.2 = (m.2.id, []) := by
              rw [assignCluster, hl2]
            rw [hA, hB]
      have hrun2 : processClusters sim store2 [] (c :: rest)
          = ((c, (assignCluster store2 [] m.2).1) ::
               (processClusters sim store2 (assignCluster store2 [] m.2).2 rest).1,
             (processClusters sim store2 (assignCluster store2 [] m.2).2 rest).2) := by
        rw [processClusters, hm]
      rw [hrun2, hassign]
      dsimp only
      have hih := ih nm'
      rw [← hqF, ← hstore2] at hih
      rw [hih]

/-- Claim C5: canonical-id assignment follows the precedence (a) exact
match in the persistent store reuses that id, (b) a name coined earlier in
the batch reuses the id assigned then, (c) otherwise the medoid's id is
recorded as a new canonical; and re-running resolution over the same
clusters with the persisted store reuses every id and mints nothing new. -/
theorem claim5_canonical_precedence_and_reuse (sim : String → String → ℚ)
    (store : List (String × Nat)) (nm : List (String × Entity)) (m : Entity)
    (clusters : List (List Mention)) :
    (∀ cid, dictLookup store m.name = some cid → assignCluster store nm m = (cid, nm)) ∧
    (∀ e, dictLookup store m.name = none → dictLookup nm m.name = some e →
      assignCluster store nm m = (e.id, nm)) ∧
    (dictLookup store m.name = none → dictLookup nm m.name = none →
      assignCluster store nm m = (m.id, dictInsert nm m.name m)) ∧
    processClusters sim
        (store ++ ((processClusters sim store [] clusters).2.map (fun p => (p.1, p.2.id))))
        [] clusters
      = ((processClusters sim store [] clusters).1, []) := by
  refine ⟨?_, ?_, ?_, processClusters_rerun sim store clusters []⟩
  · intro cid hs
    rw [assignCluster, hs]
  · intro e hs hn
    rw [assignCluster, hs, hn]
  · intro hs hn
    rw [assignCluster, hs, hn]

/-- Witness for claim C5: a store hit reuses the stored id 5 rather than
the mention's own id 7. -/
theorem claim5_witness :
    assignCluster [("AMD", 5)] [] ⟨7, "AMD", "Organization", "", none⟩ = (5, []) :=
  (claim5_canonical_precedence_and_reuse (fun _ _ => 100) [("AMD", 5)] []
    ⟨7, "AMD", "Organization", "", none⟩ []).1 5 rfl

/-! ### Invalidation engine lemmas (claims C2, C3, C4) -/

theorem vGe_cases {b a : Option Nat} (h : vGe b a = true) :
    ∃ bv av, b = some bv ∧ a = some av ∧ av ≤ bv := by
  match b, a, h with
  | some bv, some av, h =>
    exact ⟨bv, av, rfl, rfl, by simpa [vGe] using h⟩

theorem vGe_isSome_left {b a : Option Nat} (h : vGe b a = true) : b.isSome = true := by
  rcases vGe_cases h with ⟨bv, av, hb, _, _⟩
  rw [hb]
  rfl

theorem embedAll_length {Emb : Type} (embed : String → Emb)
    (events : List (TemporalEvent Emb)) :
    (embedAll embed events).length = events.length := by
  rw [embedAll, List.length_map]

theorem embedAll_get {Emb : Type} (embed : String → Emb) (events : List (TemporalEvent Emb))
    (k : Nat) (hk : k < events.length) :
    (embedAll embed events).get ⟨k, by rw [embedAll_length]; exact hk⟩
      = { events.get ⟨k, hk⟩ with embedding := embed (events.get ⟨k, hk⟩).statement } := by
  simp [embedAll, List.get_map]

theorem embedAll_map_id {Emb : Type} (embed : String → Emb)
    (events : List (TemporalEvent Emb)) :
    (embedAll embed events).map (fun e => e.id) = events.map (fun e => e.id) := by
  rw [embedAll, List.map_map]
  rfl

theorem applyUpdates_length {Emb : Type} (upd : Updates) (events' : List (TemporalEvent Emb)) :
    (applyUpdates upd events').length = events'.length := by
  rw [applyUpdates, List.length_map]

theorem applyUpdates_get {Emb : Type} (upd : Updates) (events' : List (TemporalEvent Emb))
    (k : Nat) (hk : k < events'.length) :
    (applyUpdates upd events').get ⟨k, by rw [applyUpdates_length]; exact hk⟩
      = match dictLookup upd ((events'.get ⟨k, hk⟩).id) with
        | some p => { events'.get ⟨k, hk⟩ with
            invalid_at := some p.1, invalidated_by := some p.2 }
        | none => events'.get ⟨k, hk⟩ := by
  simp [applyUpdates, List.get_map]

theorem candidatesAux_mem {Emb : Type} (simF : Emb → Emb → Bool) (e1 : TemporalEvent Emb)
    (i : Nat) :
    ∀ (l : List (TemporalEvent Emb)) (j0 : Nat) (c : TemporalEvent Emb),
      c ∈ candidatesAux simF e1 i j0 l →
      (∃ m : Fin l.length, l.get m = c ∧ j0 + m.val ≠ i) ∧
      c.statement_type = .FACT ∧ vGe c.valid_at e1.valid_at = true ∧
      simF e1.embedding c.embedding = true := by
  intro l
  induction l with
  | nil =>
    intro j0 c h
    simp [candidatesAux] at h
  | cons e2 rest ih =>
    intro j0 c h
    rw [candidatesAux] at h
    by_cases hcond : j0 ≠ i ∧ e2.statement_type = .FACT ∧ vGe e2.valid_at e1.valid_at
        ∧ simF e1.embedding e2.embedding
    · rw [if_pos hcond] at h
      rcases List.mem_cons.mp h with h' | h'
      · subst h'
        exact ⟨⟨⟨0, by simp⟩, rfl, by simpa using hcond.1⟩, hcond.2.1,
          hcond.2.2.1, hcond.2.2.2⟩
      · rcases ih (j0 + 1) c h' with ⟨⟨m, hm, hmne⟩, hrest⟩
        refine ⟨⟨⟨m.val + 1, by simpa using Nat.succ_lt_succ m.isLt⟩, ?_, ?_⟩, hrest⟩
        · simpa using hm
        · simp only [Fin.val_mk]
          omega
    · rw [if_neg hcond] at h
      rcases ih (j0 + 1) c h with ⟨⟨m, hm, hmne⟩, hrest⟩
      refine ⟨⟨⟨m.val + 1, by simpa using Nat.succ_lt_succ m.isLt⟩, ?_, ?_⟩, hrest⟩
      · simpa using hm
      · simp only [Fin.val_mk]
        omega

theorem recordCands_lookup_other {Emb : Type}
    (oracle : TemporalEvent Emb → TemporalEvent Emb → Bool) (e1 : TemporalEvent Emb)
    (K : Nat) (hK : K ≠ e1.id) :
    ∀ (cands : List (TemporalEvent Emb)) (upd : Updates),
      dictLookup (recordCands oracle e1 cands upd) K = dictLookup upd K := by
  intro cands
  induction cands with
  | nil => intro upd; rfl
  | cons c rest ih =>
    intro upd
    have hstep : dictLookup (recordStep oracle e1 upd c) K = dictLookup upd K := by
      rw [recordStep]
      cases hv : c.valid_at with
      | none => rfl
      | some cv =>
        dsimp only
        by_cases ho : oracle e1 c = true
        · rw [if_pos ho]
          cases hl : dictLookup upd e1.id with
          | none => exact dictLookup_insert_other _ _ _ _ hK
          | some p =>
            dsimp only
            by_cases hcv : cv < p.1
            · rw [if_pos hcv]
              exact dictLookup_insert_other _ _ _ _ hK
            · rw [if_neg hcv]
        · rw [if_neg ho]
    exact (ih (recordStep oracle e1 upd c)).trans hstep

theorem recordCands_lookup_cases {Emb : Type}
    (oracle : TemporalEvent Emb → TemporalEvent Emb → Bool) (e1 : TemporalEvent Emb) :
    ∀ (cands : List (TemporalEvent Emb)) (upd : Updates) (p : Nat × Nat),
      dictLookup (recordCands oracle e1 cands upd) e1.id = some p →
      dictLookup upd e1.id = some p ∨
      ∃ c ∈ cands, oracle e1 c = true ∧ c.valid_at = some p.1 ∧ c.id = p.2 := by
  intro cands
  induction cands with
  | nil => intro upd p h; exact Or.inl h
  | cons c rest ih =>
    intro upd p h
    rcases ih (recordStep oracle e1 upd c) p h with h1 | h1
    · rw [recordStep] at h1
      revert h1
      cases hv : c.valid_at with
      | none => intro h1; exact Or.inl h1
      | some cv =>
        intro h1
        dsimp only at h1
        by_cases ho : oracle e1 c = true
        · rw [if_pos ho] at h1
          revert h1
          cases hl : dictLookup upd e1.id with
          | none =>
            intro h1
            dsimp only at h1
            rw [dictLookup_insert_self] at h1
            right
            refine ⟨c, List.mem_cons_self _ _, ho, ?_, ?_⟩
            · rw [hv]
              cases h1
              rfl
            · cases h1
              rfl
          | some q =>
            intro h1
            dsimp only at h1
            by_cases hcv : cv < q.1
            · rw [if_pos hcv, dictLookup_insert_self] at h1
              right
              refine ⟨c, List.mem_cons_self _ _, ho, ?_, ?_⟩
              · rw [hv]
                cases h1
                rfl
              · cases h1
                rfl
            · rw [if_neg hcv] at h1
              exact Or.inl (by rw [← hl]; exact h1)
        · rw [if_neg ho] at h1
          exact Or.inl h1
    · rcases h1 with ⟨c', hc', hrest⟩
      exact Or.inr ⟨c', List.mem_cons_of_mem _ hc', hrest⟩

theorem pickEarliest_cons (acc : Option (Nat × Nat)) (p : Nat × Nat)
    (l : List (Nat × Nat)) :
    pickEarliest acc (p :: l)
      = pickEarliest (match acc with
          | none => some p
          | some q => if p.1 < q.1 then some p else some q) l := rfl

theorem recordCands_lookup_self {Emb : Type}
    (oracle : TemporalEvent Emb → TemporalEvent Emb → Bool) (e1 : TemporalEvent Emb) :
    ∀ (cands : List (TemporalEvent Emb)) (upd : Updates),
      dictLookup (recordCands oracle e1 cands upd) e1.id
        = pickEarliest (dictLookup upd e1.id) (confirmedPairs oracle e1 cands) := by
  intro cands
  induction cands with
  | nil => intro upd; rfl
  | cons c rest ih =>
    intro upd
    have hbody : dictLookup (recordCands oracle e1 (c :: rest) upd) e1.id
        = dictLookup (recordCands oracle e1 rest (recordStep oracle e1 upd c)) e1.id := rfl
    rw [hbody, ih (recordStep oracle e1 upd c)]
    by_cases ho : oracle e1 c = true
    · cases hv : c.valid_at with
      | none =>
        have hstep : recordStep oracle e1 upd c = upd := by rw [recordStep, hv]
        have hcp : confirmedPairs oracle e1 (c :: rest) = confirmedPairs oracle e1 rest := by
          rw [confirmedPairs, confirmedPairs, List.filter_cons, if_pos ho, pairsOf, pairsOf,
            List.filterMap_cons, hv]
          rfl
        rw [hstep, hcp]
      | some cv =>
        have hcp : confirmedPairs oracle e1 (c :: rest)
            = (cv, c.id) :: confirmedPairs oracle e1 rest := by
          rw [confirmedPairs, confirmedPairs, List.filter_cons, if_pos ho, pairsOf, pairsOf,
            List.filterMap_cons, hv]
          rfl
        rw [hcp, pickEarliest_cons]
        cases hl : dictLookup upd e1.id with
        | none =>
          have hstep : recordStep oracle e1 upd c = dictInsert upd e1.id (cv, c.id) := by
            rw [recordStep, hv]
            dsimp only
            rw [if_pos ho, hl]
          rw [hstep, dictLookup_insert_self]
        | some q =>
          dsimp only
          by_cases hcv : cv < q.1
          · have hstep : recordStep oracle e1 upd c = dictInsert upd e1.id (cv, c.id) := by
              rw [recordStep, hv]
              dsimp only
              rw [if_pos ho, hl]
              dsimp only
              rw [if_pos hcv]
            rw [hstep, dictLookup_insert_self, if_pos hcv]
          · have hstep : recordStep oracle e1 upd c = upd := by
              rw [recordStep, hv]
              dsimp only
              rw [if_pos ho, hl]
              dsimp only
              rw [if_neg hcv]
            rw [hstep, hl, if_neg hcv]
    · have ho' : oracle e1 c = false := by
        cases hoc : oracle e1 c
        · rfl
        · exact absurd hoc ho
      have hstep : recordStep oracle e1 upd c = upd := by
        rw [recordStep]
        cases hv : c.valid_at with
        | none => rfl
        | some cv =>
          dsimp only
          rw [if_neg ho]
      have hcp : confirmedPairs oracle e1 (c :: rest) = confirmedPairs oracle e1 rest := by
        rw [confirmedPairs, confirmedPairs, List.filter_cons, ho']
        rfl
      rw [hstep, hcp]

theorem primaryStep_lookup_other {Emb : Type} (simF : Emb → Emb → Bool)
    (oracle : TemporalEvent Emb → TemporalEvent Emb → Bool)
    (events' : List (TemporalEvent Emb)) (i : Nat) (e1 : TemporalEvent Emb)
    (K : Nat) (hK : K ≠ e1.id) (upd : Updates) :
    dictLookup (primaryStep simF oracle events' i e1 upd) K = dictLookup upd K := by
  rw [primaryStep]
  by_cases hg : e1.temporal_type = .DYNAMIC ∧ e1.invalid_at = none
  · rw [if_pos hg]
    by_cases he : (candidatesFor simF events' i e1).isEmpty
    · rw [if_pos he]
    · rw [if_neg he]
      exact recordCands_lookup_other oracle e1 K hK _ upd
  · rw [if_neg hg]

theorem computeUpdatesAux_lookup_skip {Emb : Type} (simF : Emb → Emb → Bool)
    (oracle : TemporalEvent Emb → TemporalEvent Emb → Bool)
    (events' : List (TemporalEvent Emb)) (K : Nat) :
    ∀ (l : List (TemporalEvent Emb)) (j0 : Nat) (upd : Updates),
      (∀ e1 ∈ l, e1.id ≠ K) →
      dictLookup (computeUpdatesAux simF oracle events' j0 l upd) K = dictLookup upd K := by
  intro l
  induction l with
  | nil => intro j0 upd _; rfl
  | cons e1 rest ih =>
    intro j0 upd hne
    have hbody : computeUpdatesAux simF oracle events' j0 (e1 :: rest) upd
        = computeUpdatesAux simF oracle events' (j0 + 1) rest
            (primaryStep simF oracle events' j0 e1 upd) := rfl
    rw [hbody, ih (j0 + 1) _ (fun e he => hne e (List.mem_cons_of_mem _ he))]
    exact primaryStep_lookup_other simF oracle events' j0 e1 K
      (fun h => hne e1 (List.mem_cons_self _ _) h.symm) upd

theorem computeUpdatesAux_append {Emb : Type} (simF : Emb → Emb → Bool)
    (oracle : TemporalEvent Emb → TemporalEvent Emb → Bool)
    (events' : List (TemporalEvent Emb)) :
    ∀ (l1 l2 : List (TemporalEvent Emb)) (j0 : Nat) (upd : Updates),
      computeUpdatesAux simF oracle events' j0 (l1 ++ l2) upd
        = computeUpdatesAux simF oracle events' (j0 + l1.length) l2
            (computeUpdatesAux simF oracle events' j0 l1 upd) := by
  intro l1
  induction l1 with
  | nil => intro l2 j0 upd; rfl
  | cons e1 rest ih =>
    intro l2 j0 upd
    have hbody : computeUpdatesAux simF oracle events' j0 ((e1 :: rest) ++ l2) upd
        = computeUpdatesAux simF oracle events' (j0 + 1) (rest ++ l2)
            (primaryStep simF oracle events' j0 e1 upd) := rfl
    rw [hbody, ih]
    have harith : j0 + 1 + rest.length = j0 + (e1 :: rest).length := by
      simp only [List.length_cons]
      omega
    rw [harith]
    rfl

theorem computeUpdates_lookup_primary {Emb : Type} (simF : Emb → Emb → Bool)
    (oracle : TemporalEvent Emb → TemporalEvent Emb → Bool)
    (events' : List (TemporalEvent Emb))
    (hids : (events'.map (fun e => e.id)).Nodup)
    (k : Nat) (hk : k < events'.length)
    (hdyn : (events'.get ⟨k, hk⟩).temporal_type = .DYNAMIC)
    (hinv : (events'.get ⟨k, hk⟩).invalid_at = none) :
    dictLookup (computeUpdates simF oracle events') ((events'.get ⟨k, hk⟩).id)
      = pickEarliest none (confirmedPairs oracle (events'.get ⟨k, hk⟩)
          (candidatesFor simF events' k (events'.get ⟨k, hk⟩))) := by
  have hid_ne : ∀ m : Fin events'.length, m.val ≠ k →
      (events'.get m).id ≠ (events'.get ⟨k, hk⟩).id := by
    intro m hm hcontra
    apply hm
    have h1 : (events'.map (fun e => e.id)).get ⟨m.val, by simpa using m.isLt⟩
        = (events'.map (fun e => e.id)).get ⟨k, by simpa using hk⟩ := by
      simp only [List.get_map]
      exact hcontra
    have h2 := (List.Nodup.get_inj_iff hids).mp h1
    simpa using h2
  have htake : ∀ x ∈ events'.take k, x.id ≠ (events'.get ⟨k, hk⟩).id := by
    intro x hx
    rcases List.mem_iff_get.mp hx with ⟨m, hm⟩
    have hmk : m.val < k := by
      have := m.isLt
      simp only [List.length_take] at this
      omega
    have hmlen : m.val < events'.length := lt_trans hmk hk
    have hget : (events'.take k).get m = events'.get ⟨m.val, hmlen⟩ := by
      rw [List.get_eq_getElem, List.get_eq_getElem]
      exact List.getElem_take events'
    rw [← hm, hget]
    exact hid_ne ⟨m.val, hmlen⟩ (Nat.ne_of_lt hmk)
  have hdrop : ∀ x ∈ events'.drop (k + 1), x.id ≠ (events'.get ⟨k, hk⟩).id := by
    intro x hx
    rcases List.mem_iff_get.mp hx with ⟨m, hm⟩
    have hmlen : k + 1 + m.val < events'.length := by
      have := m.isLt
      simp only [List.length_drop] at this
      omega
    have hget : (events'.drop (k + 1)).get m = events'.get ⟨k + 1 + m.val, hmlen⟩ := by
      simp only [List.get_eq_getElem, Fin.val_mk]
      exact List.getElem_drop events' 
    rw [← hm, hget]
    exact hid_ne ⟨k + 1 + m.val, hmlen⟩ (by simp only [Fin.val_mk]; omega)
  have hsplit : events' = events'.take k ++ ((events'.get ⟨k, hk⟩) :: events'.drop (k + 1)) := by
    conv_lhs => rw [← List.take_append_drop k events']
    rw [List.drop_eq_get_cons hk]
  have hlen_take : (events'.take k).length = k := by
    simp only [List.length_take]
    omega
  rw [computeUpdates]
  have hrw : computeUpdatesAux simF oracle events' 0 events' []
      = computeUpdatesAux simF oracle events' 0
          (events'.take k ++ ((events'.get ⟨k, hk⟩) :: events'.drop (k + 1))) [] :=
    congrArg (fun l => computeUpdatesAux simF oracle events' 0 l []) hsplit
  rw [hrw, computeUpdatesAux_append, hlen_take]
  have hupdA : dictLookup (computeUpdatesAux simF oracle events' 0 (events'.take k) [])
      ((events'.get ⟨k, hk⟩).id) = none := by
    rw [computeUpdatesAux_lookup_skip simF oracle events' _ _ 0 [] htake]
    rfl
  have hbody : computeUpdatesAux simF oracle events' (0 + k)
        ((events'.get ⟨k, hk⟩) :: events'.drop (k + 1))
        (computeUpdatesAux simF oracle events' 0 (events'.take k) [])
      = computeUpdatesAux simF oracle events' (0 + k + 1) (events'.drop (k + 1))
          (primaryStep simF oracle events' (0 + k) (events'.get ⟨k, hk⟩)
            (computeUpdatesAux simF oracle events' 0 (events'.take k) [])) := rfl
  rw [hbody, computeUpdatesAux_lookup_skip simF oracle events' _ _ _ _ hdrop]
  have hzk : 0 + k = k := by omega
  rw [hzk, primaryStep, if_pos ⟨hdyn, hinv⟩]
  by_cases he : (candidatesFor simF events' k (events'.get ⟨k, hk⟩)).isEmpty
  · rw [if_pos he]
    rw [hupdA]
    have hnil : candidatesFor simF events' k (events'.get ⟨k, hk⟩) = [] :=
      List.isEmpty_iff.mp he
    rw [hnil]
    rfl
  · rw [if_neg he, recordCands_lookup_self, hupdA]

theorem computeUpdatesAux_entry_cases {Emb : Type} (simF : Emb → Emb → Bool)
    (oracle : TemporalEvent Emb → TemporalEvent Emb → Bool)
    (events' : List (TemporalEvent Emb)) :
    ∀ (l : List (TemporalEvent Emb)) (j0 : Nat) (upd : Updates) (eid : Nat) (p : Nat × Nat),
      (∀ m : Fin l.length, ∃ hlt : j0 + m.val < events'.length,
        events'.get ⟨j0 + m.val, hlt⟩ = l.get m) →
      dictLookup (computeUpdatesAux simF oracle events' j0 l upd) eid = some p →
      dictLookup upd eid = some p ∨
      ∃ i : Fin events'.length, (events'.get i).id = eid ∧
        (events'.get i).temporal_type = .DYNAMIC ∧ (events'.get i).invalid_at = none ∧
        ∃ c ∈ candidatesFor simF events' i.val (events'.get i),
          oracle (events'.get i) c = true ∧ c.valid_at = some p.1 ∧ c.id = p.2 := by
  intro l
  induction l with
  | nil => intro j0 upd eid p _ h; exact Or.inl h
  | cons e1 rest ih =>
    intro j0 upd eid p hpos h
    have hpos' : ∀ m : Fin rest.length, ∃ hlt : (j0 + 1) + m.val < events'.length,
        events'.get ⟨(j0 + 1) + m.val, hlt⟩ = rest.get m := by
      intro m
      rcases hpos ⟨m.val + 1, by simpa using Nat.succ_lt_succ m.isLt⟩ with ⟨hlt, heq⟩
      simp only [Fin.val_mk] at hlt heq
      have harith : j0 + (m.val + 1) = (j0 + 1) + m.val := by omega
      refine ⟨by omega, ?_⟩
      have hcast : events'.get ⟨(j0 + 1) + m.val, by omega⟩
          = events'.get ⟨j0 + (m.val + 1), hlt⟩ := by
        congr 1
        exact (Fin.mk.injEq _ _ _ _).mpr harith.symm
      rw [hcast, heq]
      simp
    have hstep : computeUpdatesAux simF oracle events' j0 (e1 :: rest) upd
        = computeUpdatesAux simF oracle events' (j0 + 1) rest
            (primaryStep simF oracle events' j0 e1 upd) := rfl
    rw [hstep] at h
    rcases ih (j0 + 1) _ eid p hpos' h with h1 | h1
    · rw [primaryStep] at h1
      by_cases hg : e1.temporal_type = .DYNAMIC ∧ e1.invalid_at = none
      · rw [if_pos hg] at h1
        by_cases he : (candidatesFor simF events' j0 e1).isEmpty
        · rw [if_pos he] at h1
          exact Or.inl h1
        · rw [if_neg he] at h1
          by_cases hKe : eid = e1.id
          · subst hKe
            rcases recordCands_lookup_cases oracle e1 _ upd p h1 with h2 | h2
            · exact Or.inl h2
            · right
              rcases hpos ⟨0, by simp⟩ with ⟨hlt, heq⟩
              simp only [Fin.val_mk, Nat.add_zero, List.get_cons_zero] at hlt heq
              rcases h2 with ⟨c, hc, hrest⟩
              exact ⟨⟨j0, hlt⟩, by rw [heq]; rfl, by rw [heq]; exact hg.1,
                by rw [heq]; exact hg.2, c, by rw [heq]; exact hc,
                by rw [heq]; exact hrest.1, hrest.2.1, hrest.2.2⟩
          · rw [recordCands_lookup_other oracle e1 eid hKe _ upd] at h1
            exact Or.inl h1
      · rw [if_neg hg] at h1
        exact Or.inl h1
    · exact Or.inr h1

theorem pairsOf_cons_some {Emb : Type} {c : TemporalEvent Emb} {v : Nat}
    (hv : c.valid_at = some v) (rest : List (TemporalEvent Emb)) :
    pairsOf (c :: rest) = (v, c.id) :: pairsOf rest := by
  rw [pairsOf, List.filterMap_cons, hv]
  rfl

theorem pairsOf_cons_none {Emb : Type} {c : TemporalEvent Emb}
    (hv : c.valid_at = none) (rest : List (TemporalEvent Emb)) :
    pairsOf (c :: rest) = pairsOf rest := by
  rw [pairsOf, List.filterMap_cons, hv]
  rfl

theorem pairsOf_mem {Emb : Type} :
    ∀ (l : List (TemporalEvent Emb)) (p : Nat × Nat),
      p ∈ pairsOf l → ∃ c ∈ l, c.valid_at = some p.1 ∧ c.id = p.2 := by
  intro l
  induction l with
  | nil => intro p h; simp [pairsOf] at h
  | cons c rest ih =>
    intro p h
    cases hv : c.valid_at with
    | none =>
      rw [pairsOf_cons_none hv] at h
      rcases ih p h with ⟨c', hc', hp⟩
      exact ⟨c', List.mem_cons_of_mem _ hc', hp⟩
    | some v =>
      rw [pairsOf_cons_some hv] at h
      rcases List.mem_cons.mp h with h' | h'
      · subst h'
        exact ⟨c, List.mem_cons_self _ _, by rw [hv], rfl⟩
      · rcases ih p h' with ⟨c', hc', hp⟩
        exact ⟨c', List.mem_cons_of_mem _ hc', hp⟩

theorem mem_pairsOf {Emb : Type} :
    ∀ (l : List (TemporalEvent Emb)) (c : TemporalEvent Emb) (cv : Nat),
      c ∈ l → c.valid_at = some cv → (cv, c.id) ∈ pairsOf l := by
  intro l
  induction l with
  | nil => intro c cv h _; cases h
  | cons a rest ih =>
    intro c cv hmem hv
    rcases List.mem_cons.mp hmem with h | h
    · subst h
      rw [pairsOf_cons_some hv]
      exact List.mem_cons_self _ _
    · cases ha : a.valid_at with
      | none =>
        rw [pairsOf_cons_none ha]
        exact ih c cv h hv
      | some av =>
        rw [pairsOf_cons_some ha]
        exact List.mem_cons_of_mem _ (ih c cv h hv)

theorem pairsOf_find {Emb : Type} :
    ∀ (l : List (TemporalEvent Emb)), (∀ c ∈ l, c.valid_at.isSome = true) → ∀ v : Nat,
      (pairsOf l).find? (fun p => decide (p.1 = v))
        = (l.find? (fun c => decide (c.valid_at = some v))).map (fun c => (v, c.id)) := by
  intro l
  induction l with
  | nil => intro _ v; rfl
  | cons c rest ih =>
    intro hall v
    have hsome := hall c (List.mem_cons_self _ _)
    cases hv : c.valid_at with
    | none =>
      rw [hv] at hsome
      cases hsome
    | some cv =>
      rw [pairsOf_cons_some hv]
      by_cases hcv : cv = v
      · subst hcv
        rw [List.find?_cons_of_pos _ (by simp), List.find?_cons_of_pos _ (by simp [hv])]
        rfl
      · rw [List.find?_cons_of_neg _ (by simp [hcv]),
          List.find?_cons_of_neg _ (by simp [hv, hcv])]
        exact ih (fun c' hc' => hall c' (List.mem_cons_of_mem _ hc')) v

theorem pickEarliest_cons_none (p : Nat × Nat) (l : List (Nat × Nat)) :
    pickEarliest none (p :: l) = pickEarliest (some p) l := rfl

theorem pickEarliest_cons_some (q p : Nat × Nat) (l : List (Nat × Nat)) :
    pickEarliest (some q) (p :: l)
      = pickEarliest (if p.1 < q.1 then some p else some q) l := rfl

theorem pickEarliest_some_eq :
    ∀ (l : List (Nat × Nat)) (q : Nat × Nat),
      pickEarliest (some q) l
        = some (selFold (fun x => OrderDual.toDual x.1) q l) := by
  intro l
  induction l with
  | nil => intro q; rfl
  | cons p rest ih =>
    intro q
    rw [pickEarliest_cons_some, selFold]
    have hcond : ((fun x : Nat × Nat => OrderDual.toDual x.1) q
        < (fun x : Nat × Nat => OrderDual.toDual x.1) p) ↔ p.1 < q.1 := by
      simp
    by_cases h : p.1 < q.1
    · rw [if_pos h, if_pos (hcond.mpr h)]
      exact ih p
    · rw [if_neg h, if_neg (fun hh => h (hcond.mp hh))]
      exact ih q

theorem pickEarliest_spec (q : Nat × Nat) (l : List (Nat × Nat)) :
    ∃ r, pickEarliest (some q) l = some r ∧ (r = q ∨ r ∈ l) ∧
      r.1 ≤ q.1 ∧ (∀ p ∈ l, r.1 ≤ p.1) ∧
      (q :: l).find? (fun p => decide (p.1 = r.1)) = some r := by
  refine ⟨selFold (fun x => OrderDual.toDual x.1) q l, pickEarliest_some_eq l q,
    ?_, ?_, ?_, ?_⟩
  · exact selFold_mem (fun x => OrderDual.toDual x.1) l q
  · have hle := (selFold_max (fun x : Nat × Nat => OrderDual.toDual x.1) l q).1
    simpa using hle
  · intro p hp
    have hle := (selFold_max (fun x : Nat × Nat => OrderDual.toDual x.1) l q).2 p hp
    simpa using hle
  · have hfind := selFold_first (fun x : Nat × Nat => OrderDual.toDual x.1) l q
    have hcong : (q :: l).find?
          (fun p => decide (p.1 = (selFold (fun x : Nat × Nat => OrderDual.toDual x.1) q l).1))
        = (q :: l).find? (fun p => decide ((fun x : Nat × Nat => OrderDual.toDual x.1) p
            = (fun x : Nat × Nat => OrderDual.toDual x.1)
                (selFold (fun x : Nat × Nat => OrderDual.toDual x.1) q l))) := by
      apply find?_congr_mem
      intro x _
      apply decide_eq_decide.mpr
      constructor
      · intro h
        simpa using h
      · intro h
        simpa using h
    rw [hcong]
    exact hfind

theorem invalidate_length {Emb : Type} (embed : String → Emb) (simF : Emb → Emb → Bool)
    (oracle : TemporalEvent Emb → TemporalEvent Emb → Bool)
    (events : List (TemporalEvent Emb)) :
    (invalidate_events_in_state embed simF oracle events).length = events.length := by
  rw [invalidate_events_in_state, applyUpdates_length, embedAll_length]

theorem enum_pos_self {Emb : Type} (events' : List (TemporalEvent Emb)) :
    ∀ m : Fin events'.length, ∃ hlt : 0 + m.val < events'.length,
      events'.get ⟨0 + m.val, hlt⟩ = events'.get m := by
  intro m
  refine ⟨by simpa using m.isLt, ?_⟩
  congr 1
  exact Fin.ext (by simp)

theorem events_get_inj {Emb : Type} {events' : List (TemporalEvent Emb)}
    (hids : (events'.map (fun e => e.id)).Nodup) {i j : Fin events'.length}
    (h : (events'.get i).id = (events'.get j).id) : i = j := by
  have h1 : (events'.map (fun e => e.id)).get ⟨i.val, by simpa using i.isLt⟩
      = (events'.map (fun e => e.id)).get ⟨j.val, by simpa using j.isLt⟩ := by
    simp only [List.get_map]
    exact h
  have h2 := (List.Nodup.get_inj_iff hids).mp h1
  have h3 : i.val = j.val := by simpa using h2
  exact Fin.ext h3

/-! ### Claim C3: skip rules of the invalidation pass -/

/-- Claim C3: the invalidation pass never sets `invalid_at` or
`invalidated_by` on an event whose `temporal_type` is not DYNAMIC, and
leaves both fields unchanged on any event whose `invalid_at` was already
set before the pass (write-once). -/
theorem claim3_skip_non_candidates {Emb : Type} (embed : String → Emb)
    (simF : Emb → Emb → Bool) (oracle : TemporalEvent Emb → TemporalEvent Emb → Bool)
    (events : List (TemporalEvent Emb))
    (hids : (events.map (fun e => e.id)).Nodup)
    (k : Nat) (hk : k < events.length)
    (hk2 : k < (invalidate_events_in_state embed simF oracle events).length)
    (hskip : (events.get ⟨k, hk⟩).temporal_type ≠ .DYNAMIC
      ∨ (events.get ⟨k, hk⟩).invalid_at ≠ none) :
    ((invalidate_events_in_state embed simF oracle events).get ⟨k, hk2⟩).invalid_at
        = (events.get ⟨k, hk⟩).invalid_at ∧
    ((invalidate_events_in_state embed simF oracle events).get ⟨k, hk2⟩).invalidated_by
        = (events.get ⟨k, hk⟩).invalidated_by := by
  have hk' : k < (embedAll embed events).length := by
    rw [embedAll_length]
    exact hk
  have hids' : ((embedAll embed events).map (fun e => e.id)).Nodup := by
    rw [embedAll_map_id]
    exact hids
  have hfields : (embedAll embed events).get ⟨k, hk'⟩
      = { events.get ⟨k, hk⟩ with embedding := embed (events.get ⟨k, hk⟩).statement } :=
    embedAll_get embed events k hk
  have hnone : dictLookup (computeUpdates simF oracle (embedAll embed events))
      (((embedAll embed events).get ⟨k, hk'⟩).id) = none := by
    cases hl : dictLookup (computeUpdates simF oracle (embedAll embed events))
        (((embedAll embed events).get ⟨k, hk'⟩).id) with
    | none => rfl
    | some p =>
      exfalso
      rw [computeUpdates] at hl
      rcases computeUpdatesAux_entry_cases simF oracle (embedAll embed events)
          (embedAll embed events) 0 [] _ p (enum_pos_self _) hl with h1 | h1
      · cases h1
      · rcases h1 with ⟨i, hid, hdyn, hinv, _⟩
        have hik : i = ⟨k, hk'⟩ := events_get_inj hids' hid
        rw [hik, hfields] at hdyn hinv
        rcases hskip with hs | hs
        · exact hs hdyn
        · exact hs hinv
  have hout : (invalidate_events_in_state embed simF oracle events).get ⟨k, hk2⟩
      = (embedAll embed events).get ⟨k, hk'⟩ := by
    have happ := applyUpdates_get (computeUpdates simF oracle (embedAll embed events))
      (embedAll embed events) k hk'
    rw [hnone] at happ
    exact happ
  rw [hout, hfields]
  exact ⟨rfl, rfl⟩

/-! ### Claim C2: invalidator properties -/

/-- Claim C2: whenever the pass sets an event's invalidation fields, the
referenced invalidator is a different event of the same batch with
`statement_type = FACT` and `valid_at` at or after the invalidated event's
`valid_at`, and the event's new `invalid_at` equals the invalidator's
`valid_at` (hence `invalid_at ≥ valid_at`). -/
theorem claim2_invalidator_is_later_fact {Emb : Type} (embed : String → Emb)
    (simF : Emb → Emb → Bool) (oracle : TemporalEvent Emb → TemporalEvent Emb → Bool)
    (events : List (TemporalEvent Emb))
    (hids : (events.map (fun e => e.id)).Nodup)
    (k : Nat) (hk : k < events.length)
    (hk2 : k < (invalidate_events_in_state embed simF oracle events).length)
    (hbefore : (events.get ⟨k, hk⟩).invalid_at = none)
    (hset : ((invalidate_events_in_state embed simF oracle events).get ⟨k, hk2⟩).invalid_at
      ≠ none) :
    ∃ (j : Nat) (hj : j < events.length) (bv : Nat),
      j ≠ k ∧
      (events.get ⟨j, hj⟩).id ≠ (events.get ⟨k, hk⟩).id ∧
      (events.get ⟨j, hj⟩).statement_type = .FACT ∧
      (events.get ⟨j, hj⟩).valid_at = some bv ∧
      ((invalidate_events_in_state embed simF oracle events).get ⟨k, hk2⟩).invalid_at
        = some bv ∧
      ((invalidate_events_in_state embed simF oracle events).get ⟨k, hk2⟩).invalidated_by
        = some (events.get ⟨j, hj⟩).id ∧
      ∃ av, (events.get ⟨k, hk⟩).valid_at = some av ∧ av ≤ bv := by
  have hk' : k < (embedAll embed events).length := by
    rw [embedAll_length]
    exact hk
  have hids' : ((embedAll embed events).map (fun e => e.id)).Nodup := by
    rw [embedAll_map_id]
    exact hids
  have hfields : (embedAll embed events).get ⟨k, hk'⟩
      = { events.get ⟨k, hk⟩ with embedding := embed (events.get ⟨k, hk⟩).statement } :=
    embedAll_get embed events k hk
  cases hl : dictLookup (computeUpdates simF oracle (embedAll embed events))
      (((embedAll embed events).get ⟨k, hk'⟩).id) with
  | none =>
    exfalso
    apply hset
    have hout : (invalidate_events_in_state embed simF oracle events).get ⟨k, hk2⟩
        = (embedAll embed events).get ⟨k, hk'⟩ := by
      have happ := applyUpdates_get (computeUpdates simF oracle (embedAll embed events))
        (embedAll embed events) k hk'
      rw [hl] at happ
      exact happ
    rw [hout, hfields]
    exact hbefore
  | some p =>
    have hout : (invalidate_events_in_state embed simF oracle events).get ⟨k, hk2⟩
        = { (embedAll embed events).get ⟨k, hk'⟩ with
            invalid_at := some p.1, invalidated_by := some p.2 } := by
      have happ := applyUpdates_get (computeUpdates simF oracle (embedAll embed events))
        (embedAll embed events) k hk'
      rw [hl] at happ
      exact happ
    rw [computeUpdates] at hl
    rcases computeUpdatesAux_entry_cases simF oracle (embedAll embed events)
        (embedAll embed events) 0 [] _ p (enum_pos_self _) hl with h1 | h1
    · cases h1
    · rcases h1 with ⟨i, hid, hdyn, hinv, c, hc, horacle, hcv, hcid⟩
      have hik : i = ⟨k, hk'⟩ := events_get_inj hids' hid
      rw [hik] at hc horacle
      rcases candidatesAux_mem simF _ k (embedAll embed events) 0 c hc with
        ⟨⟨m, hmget, hmne⟩, hfact, hvge, _⟩
      have hj : m.val < events.length :=
        lt_of_lt_of_eq m.isLt (embedAll_length embed events)
      have hcfields : c = { events.get ⟨m.val, hj⟩ with
          embedding := embed (events.get ⟨m.val, hj⟩).statement } := by
        rw [← hmget]
        have hge := embedAll_get embed events m.val hj
        rw [← hge]
      rcases vGe_cases hvge with ⟨bv, av, hcb, hea, hab⟩
      have hbv : bv = p.1 := by
        rw [hcv] at hcb
        cases hcb
        rfl
      refine ⟨m.val, hj, p.1, ?_, ?_, ?_, ?_, ?_, ?_, ?_⟩
      · intro hmk
        apply hmne
        simpa [hmk] using rfl
      · intro heq
        have : m = ⟨k, hk'⟩ := by
          apply events_get_inj hids'
          rw [hmget, hfields, hcfields]
          simpa using heq
        apply hmne
        rw [this]
        simp
      · rw [← hbv] at hcv
        have : c.statement_type = (events.get ⟨m.val, hj⟩).statement_type := by
          rw [hcfields]
        rw [← this]
        exact hfact
      · have : c.valid_at = (events.get ⟨m.val, hj⟩).valid_at := by
          rw [hcfields]
        rw [← this, hcv]
      · rw [hout]
      · have : c.id = (events.get ⟨m.val, hj⟩).id := by
          rw [hcfields]
        rw [hout, ← this, ← hcid]
      · refine ⟨av, ?_, ?_⟩
        · have : ((embedAll embed events).get ⟨k, hk'⟩).valid_at
              = (events.get ⟨k, hk⟩).valid_at := by
            rw [hfields]
          rw [← this]
          exact hea
        · rw [← hbv] at *
          exact hab

/-! ### Claim C4: earliest confirmed candidate wins -/

theorem candidatesFor_valid_isSome {Emb : Type} (simF : Emb → Emb → Bool)
    (events' : List (TemporalEvent Emb)) (i : Nat) (e1 : TemporalEvent Emb) :
    ∀ c ∈ candidatesFor simF events' i e1, c.valid_at.isSome = true := by
  intro c hc
  rcases candidatesAux_mem simF e1 i events' 0 c hc with ⟨_, _, hvge, _⟩
  exact vGe_isSome_left hvge

/-- Claim C4: for a primary event with at least one oracle-confirmed
candidate, the pass records as invalidator the confirmed candidate with the
earliest `valid_at`; among confirmed candidates that share that earliest
`valid_at`, the first in candidate order wins. -/
theorem claim4_earliest_confirmed_candidate_wins {Emb : Type} (embed : String → Emb)
    (simF : Emb → Emb → Bool) (oracle : TemporalEvent Emb → TemporalEvent Emb → Bool)
    (events : List (TemporalEvent Emb))
    (hids : (events.map (fun e => e.id)).Nodup)
    (k : Nat) (hk : k < (embedAll embed events).length)
    (hdyn : ((embedAll embed events).get ⟨k, hk⟩).temporal_type = .DYNAMIC)
    (hinv : ((embedAll embed events).get ⟨k, hk⟩).invalid_at = none)
    (hk2 : k < (invalidate_events_in_state embed simF oracle events).length)
    (hconf : (candidatesFor simF (embedAll embed events) k
        ((embedAll embed events).get ⟨k, hk⟩)).filter
        (fun c => oracle ((embedAll embed events).get ⟨k, hk⟩) c) ≠ []) :
    ∃ (w : TemporalEvent Emb) (wv : Nat),
      w ∈ (candidatesFor simF (embedAll embed events) k
        ((embedAll embed events).get ⟨k, hk⟩)).filter
        (fun c => oracle ((embedAll embed events).get ⟨k, hk⟩) c) ∧
      w.valid_at = some wv ∧
      (∀ c ∈ (candidatesFor simF (embedAll embed events) k
          ((embedAll embed events).get ⟨k, hk⟩)).filter
          (fun c => oracle ((embedAll embed events).get ⟨k, hk⟩) c),
        ∀ cv, c.valid_at = some cv → wv ≤ cv) ∧
      ((candidatesFor simF (embedAll embed events) k
          ((embedAll embed events).get ⟨k, hk⟩)).filter
          (fun c => oracle ((embedAll embed events).get ⟨k, hk⟩) c)).find?
        (fun c => decide (c.valid_at = some wv)) = some w ∧
      ((invalidate_events_in_state embed simF oracle events).get ⟨k, hk2⟩).invalid_at
        = some wv ∧
      ((invalidate_events_in_state embed simF oracle events).get ⟨k, hk2⟩).invalidated_by
        = some w.id := by
  have hids' : ((embedAll embed events).map (fun e => e.id)).Nodup := by
    rw [embedAll_map_id]
    exact hids
  have hlookup := computeUpdates_lookup_primary simF oracle (embedAll embed events) hids'
    k hk hdyn hinv
  set e1 := (embedAll embed events).get ⟨k, hk⟩ with he1
  set confirmed := (candidatesFor simF (embedAll embed events) k e1).filter
    (fun c => oracle e1 c) with hconfirmed
  have hall : ∀ c ∈ confirmed, c.valid_at.isSome = true := by
    intro c hc
    exact candidatesFor_valid_isSome simF (embedAll embed events) k e1 c
      (List.mem_of_mem_filter hc)
  have hpairs : confirmedPairs oracle e1 (candidatesFor simF (embedAll embed events) k e1)
      = pairsOf confirmed := rfl
  rcases List.exists_cons_of_ne_nil hconf with ⟨c0, rest0, hne⟩
  have hc0some : c0.valid_at.isSome = true := by
    apply hall c0
    rw [hne]
    exact List.mem_cons_self _ _
  rcases Option.isSome_iff_exists.mp hc0some with ⟨v0, hv0⟩
  have hpairs_cons : pairsOf confirmed = (v0, c0.id) :: pairsOf rest0 := by
    rw [hne]
    exact pairsOf_cons_some hv0 rest0
  rcases pickEarliest_spec (v0, c0.id) (pairsOf rest0) with ⟨r, hpick, hmem, hle0, hlerest, hfind⟩
  have hlook2 : dictLookup (computeUpdates simF oracle (embedAll embed events)) e1.id
      = some r := by
    rw [hlookup, hpairs, hpairs_cons, pickEarliest_cons_none, hpick]
  -- transfer find? from pairs to confirmed
  have hfind2 : (pairsOf confirmed).find? (fun p => decide (p.1 = r.1)) = some r := by
    rw [hpairs_cons]
    exact hfind
  have hfind3 := pairsOf_find confirmed hall r.1
  rw [hfind2] at hfind3
  rcases hw : confirmed.find? (fun c => decide (c.valid_at = some r.1)) with _ | w
  · rw [hw] at hfind3
    cases hfind3
  · rw [hw] at hfind3
    have hrw : (r.1, w.id) = r := by
      have := hfind3.symm
      simp only [Option.map_some'] at this
      exact (Option.some.inj this)
    have hwmem : w ∈ confirmed := List.mem_of_find?_eq_some hw
    have hwv : w.valid_at = some r.1 := by
      have := List.find?_some hw
      simpa using this
    have hout : (invalidate_events_in_state embed simF oracle events).get ⟨k, hk2⟩
        = { e1 with invalid_at := some r.1, invalidated_by := some r.2 } := by
      have happ := applyUpdates_get (computeUpdates simF oracle (embedAll embed events))
        (embedAll embed events) k hk
      rw [← he1, hlook2] at happ
      exact happ
    refine ⟨w, r.1, hwmem, hwv, ?_, hw, ?_, ?_⟩
    · intro c hc cv hcv
      have hp : (cv, c.id) ∈ pairsOf confirmed := mem_pairsOf confirmed c cv hc hcv
      rw [hpairs_cons] at hp
      rcases List.mem_cons.mp hp with h' | h'
      · have : cv = v0 := by
          have := congrArg Prod.fst h'
          simpa using this
        rw [this]
        exact hle0
      · have := hlerest _ h'
        simpa using this
    · rw [hout]
    · rw [hout]
      have : w.id = r.2 := by
        have := congrArg Prod.snd hrw
        simpa using this
      rw [this]

/-- Witness for claim C3: a STATIC event is left untouched by the pass. -/
theorem claim3_witness :
    ((invalidate_events_in_state (fun _ => (1 : Nat)) (fun _ _ => true) (fun _ _ => true)
        [wEvStatic]).get ⟨0, by rw [invalidate_length]; decide⟩).invalid_at
      = (([wEvStatic] : List (TemporalEvent Nat)).get ⟨0, by decide⟩).invalid_at ∧
    ((invalidate_events_in_state (fun _ => (1 : Nat)) (fun _ _ => true) (fun _ _ => true)
        [wEvStatic]).get ⟨0, by rw [invalidate_length]; decide⟩).invalidated_by
      = (([wEvStatic] : List (TemporalEvent Nat)).get ⟨0, by decide⟩).invalidated_by :=
  claim3_skip_non_candidates (fun _ => (1 : Nat)) (fun _ _ => true) (fun _ _ => true)
    [wEvStatic] (by decide) 0 (by decide) (by rw [invalidate_length]; decide)
    (Or.inl (fun h => TemporalType.noConfusion h))

/-- Witness for claim C2 at the concrete two-event batch: the DYNAMIC event
gets invalidated by the later FACT. -/
theorem claim2_witness :
    ∃ (j : Nat) (hj : j < wEvents.length) (bv : Nat),
      j ≠ 0 ∧
      (wEvents.get ⟨j, hj⟩).id ≠ (wEvents.get ⟨0, by decide⟩).id ∧
      (wEvents.get ⟨j, hj⟩).statement_type = .FACT ∧
      (wEvents.get ⟨j, hj⟩).valid_at = some bv ∧
      ((invalidate_events_in_state (fun _ => (1 : Nat)) (fun _ _ => true) (fun _ _ => true)
          wEvents).get ⟨0, by rw [invalidate_length]; decide⟩).invalid_at = some bv ∧
      ((invalidate_events_in_state (fun _ => (1 : Nat)) (fun _ _ => true) (fun _ _ => true)
          wEvents).get ⟨0, by rw [invalidate_length]; decide⟩).invalidated_by
        = some (wEvents.get ⟨j, hj⟩).id ∧
      ∃ av, (wEvents.get ⟨0, by decide⟩).valid_at = some av ∧ av ≤ bv :=
  claim2_invalidator_is_later_fact (fun _ => (1 : Nat)) (fun _ _ => true) (fun _ _ => true)
    wEvents (by decide) 0 (by decide) (by rw [invalidate_length]; decide) rfl
    (fun h => Option.noConfusion h)

/-- Witness for claim C4 at the concrete two-event batch: the single
confirmed candidate wins. -/
theorem claim4_witness :
    ∃ (w : TemporalEvent Nat) (wv : Nat),
      w ∈ (candidatesFor (fun _ _ => true)
          (embedAll (fun _ => (1 : Nat)) wEvents) 0
          ((embedAll (fun _ => (1 : Nat)) wEvents).get ⟨0, by decide⟩)).filter
        (fun c => (fun _ _ => true) ((embedAll (fun _ => (1 : Nat)) wEvents).get
          ⟨0, by decide⟩) c) ∧
      w.valid_at = some wv ∧
      (∀ c ∈ (candidatesFor (fun _ _ => true)
          (embedAll (fun _ => (1 : Nat)) wEvents) 0
          ((embedAll (fun _ => (1 : Nat)) wEvents).get ⟨0, by decide⟩)).filter
          (fun c => (fun _ _ => true) ((embedAll (fun _ => (1 : Nat)) wEvents).get
            ⟨0, by decide⟩) c),
        ∀ cv, c.valid_at = some cv → wv ≤ cv) ∧
      ((candidatesFor (fun _ _ => true)
          (embedAll (fun _ => (1 : Nat)) wEvents) 0
          ((embedAll (fun _ => (1 : Nat)) wEvents).get ⟨0, by decide⟩)).filter
          (fun c => (fun _ _ => true) ((embedAll (fun _ => (1 : Nat)) wEvents).get
            ⟨0, by decide⟩) c)).find?
        (fun c => decide (c.valid_at = some wv)) = some w ∧
      ((invalidate_events_in_state (fun _ => (1 : Nat)) (fun _ _ => true) (fun _ _ => true)
          wEvents).get ⟨0, by rw [invalidate_length]; decide⟩).invalid_at = some wv ∧
      ((invalidate_events_in_state (fun _ => (1 : Nat)) (fun _ _ => true) (fun _ _ => true)
          wEvents).get ⟨0, by rw [invalidate_length]; decide⟩).invalidated_by
        = some w.id :=
  claim4_earliest_confirmed_candidate_wins (fun _ => (1 : Nat)) (fun _ _ => true)
    (fun _ _ => true) wEvents (by decide) 0 (by decide) rfl rfl
    (by rw [invalidate_length]; decide) (fun h => List.noConfusion h)

/-! ### Claim C9: frame of the resolution and invalidation stages -/

theorem resolve_entities_entities_get {Emb : Type} (sim pr : String → String → ℚ)
    (store : List (String × Nat)) (st : RState Emb)
    (k : Nat) (hk : k < st.entities.length)
    (hk2 : k < (resolve_entities_in_state sim pr store st).1.entities.length) :
    (resolve_entities_in_state sim pr store st).1.entities.get ⟨k, hk2⟩
      = match dictLookup (ridMap (processClusters sim store []
            (clustersFor pr st.entities)).1) k with
        | some cid => { st.entities.get ⟨k, hk⟩ with resolved_id := some cid }
        | none => st.entities.get ⟨k, hk⟩ := by
  have h1 : (resolve_entities_in_state sim pr store st).1.entities
      = st.entities.enum.map (fun q =>
          match dictLookup (ridMap (processClusters sim store []
            (clustersFor pr st.entities)).1) q.1 with
          | some cid => { q.2 with resolved_id := some cid }
          | none => q.2) := rfl
  have hke : k < st.entities.enum.length := by
    rw [List.enum_length]
    exact hk
  have h2 : st.entities.enum.get ⟨k, hke⟩ = (k, st.entities.get ⟨k, hk⟩) := by
    simp [List.get_eq_getElem, List.getElem_enum]
  calc (resolve_entities_in_state sim pr store st).1.entities.get ⟨k, hk2⟩
      = (st.entities.enum.map (fun q =>
          match dictLookup (ridMap (processClusters sim store []
            (clustersFor pr st.entities)).1) q.1 with
          | some cid => { q.2 with resolved_id := some cid }
          | none => q.2)).get ⟨k, by rw [← h1]; exact hk2⟩ := by
        rw [List.get_eq_getElem, List.get_eq_getElem]
        congr 1
    _ = _ := by
        simp only [List.get_map, h2]

theorem applyTripletMap_frame (im : List (Nat × Nat)) (t : Triplet) :
    (applyTripletMap im t).id = t.id ∧
    (applyTripletMap im t).subject_name = t.subject_name ∧
    (applyTripletMap im t).predicate = t.predicate ∧
    (applyTripletMap im t).object_name = t.object_name ∧
    (applyTripletMap im t).value = t.value := by
  cases h1 : dictLookup im t.subject_id <;> cases h2 : dictLookup im t.object_id <;>
    simp [applyTripletMap, h1, h2]

/-- Claim C9 fails as stated: the invalidation pass also overwrites every
event's `embedding` field (main.py lines 850-852), so a field other than
`invalid_at`/`invalidated_by` changes. -/
theorem claim9_counterexample :
    ((invalidate_events_in_state (fun _ => (1 : Nat)) (fun _ _ => true) (fun _ _ => true)
        [wEvStatic]).get ⟨0, by rw [invalidate_length]; decide⟩).embedding
      ≠ (([wEvStatic] : List (TemporalEvent Nat)).get ⟨0, by decide⟩).embedding := by
  decide

/-- Claim C9 (amended): resolution changes only `Entity.resolved_id` and
`Triplet.subject_id`/`object_id` and leaves events untouched; invalidation
changes only `TemporalEvent.embedding` (overwritten for every event with
the embedding of its statement), `invalid_at` and `invalidated_by`; every
other field of every record is unchanged and the number and ids of
entities, triplets, and events are preserved. -/
theorem claim9_frame_amended {Emb : Type} (sim pr : String → String → ℚ)
    (store : List (String × Nat)) (st : RState Emb)
    (embed : String → Emb) (simF : Emb → Emb → Bool)
    (oracle : TemporalEvent Emb → TemporalEvent Emb → Bool)
    (events : List (TemporalEvent Emb)) :
    ((resolve_entities_in_state sim pr store st).1.entities.length = st.entities.length) ∧
    (∀ (k : Nat) (hk : k < st.entities.length)
        (hk2 : k < (resolve_entities_in_state sim pr store st).1.entities.length),
      ((resolve_entities_in_state sim pr store st).1.entities.get ⟨k, hk2⟩).id
          = (st.entities.get ⟨k, hk⟩).id ∧
      ((resolve_entities_in_state sim pr store st).1.entities.get ⟨k, hk2⟩).name
          = (st.entities.get ⟨k, hk⟩).name ∧
      ((resolve_entities_in_state sim pr store st).1.entities.get ⟨k, hk2⟩).type
          = (st.entities.get ⟨k, hk⟩).type ∧
      ((resolve_entities_in_state sim pr store st).1.entities.get ⟨k, hk2⟩).description
          = (st.entities.get ⟨k, hk⟩).description) ∧
    ((resolve_entities_in_state sim pr store st).1.triplets.length = st.triplets.length) ∧
    (∀ (k : Nat) (hk : k < st.triplets.length)
        (hk2 : k < (resolve_entities_in_state sim pr store st).1.triplets.length),
      ((resolve_entities_in_state sim pr store st).1.triplets.get ⟨k, hk2⟩).id
          = (st.triplets.get ⟨k, hk⟩).id ∧
      ((resolve_entities_in_state sim pr store st).1.triplets.get ⟨k, hk2⟩).subject_name
          = (st.triplets.get ⟨k, hk⟩).subject_name ∧
      ((resolve_entities_in_state sim pr store st).1.triplets.get ⟨k, hk2⟩).predicate
          = (st.triplets.get ⟨k, hk⟩).predicate ∧
      ((resolve_entities_in_state sim pr store st).1.triplets.get ⟨k, hk2⟩).object_name
          = (st.triplets.get ⟨k, hk⟩).object_name ∧
      ((resolve_entities_in_state sim pr store st).1.triplets.get ⟨k, hk2⟩).value
          = (st.triplets.get ⟨k, hk⟩).value) ∧
    ((resolve_entities_in_state sim pr store st).1.temporal_events = st.temporal_events) ∧
    ((invalidate_events_in_state embed simF oracle events).length = events.length) ∧
    (∀ (k : Nat) (hk : k < events.length)
        (hk2 : k < (invalidate_events_in_state embed simF oracle events).length),
      ((invalidate_events_in_state embed simF oracle events).get ⟨k, hk2⟩).id
          = (events.get ⟨k, hk⟩).id ∧
      ((invalidate_events_in_state embed simF oracle events).get ⟨k, hk2⟩).chunk_id
          = (events.get ⟨k, hk⟩).chunk_id ∧
      ((invalidate_events_in_state embed simF oracle events).get ⟨k, hk2⟩).statement
          = (events.get ⟨k, hk⟩).statement ∧
      ((invalidate_events_in_state embed simF oracle events).get ⟨k, hk2⟩).statement_type
          = (events.get ⟨k, hk⟩).statement_type ∧
      ((invalidate_events_in_state embed simF oracle events).get ⟨k, hk2⟩).temporal_type
          = (events.get ⟨k, hk⟩).temporal_type ∧
      ((invalidate_events_in_state embed simF oracle events).get ⟨k, hk2⟩).valid_at
          = (events.get ⟨k, hk⟩).valid_at ∧
      ((invalidate_events_in_state embed simF oracle events).get ⟨k, hk2⟩).triplets
          = (events.get ⟨k, hk⟩).triplets ∧
      ((invalidate_events_in_state embed simF oracle events).get ⟨k, hk2⟩).created_at
          = (events.get ⟨k, hk⟩).created_at ∧
      ((invalidate_events_in_state embed simF oracle events).get ⟨k, hk2⟩).expired_at
          = (events.get ⟨k, hk⟩).expired_at ∧
      ((invalidate_events_in_state embed simF oracle events).get ⟨k, hk2⟩).embedding
          = embed (events.get ⟨k, hk⟩).statement) := by
  refine ⟨?_, ?_, ?_, ?_, rfl, invalidate_length embed simF oracle events, ?_⟩
  · show (st.entities.enum.map _).length = st.entities.length
    rw [List.length_map, List.enum_length]
  · intro k hk hk2
    rw [resolve_entities_entities_get sim pr store st k hk hk2]
    cases dictLookup (ridMap (processClusters sim store [] (clustersFor pr st.entities)).1) k
    · exact ⟨rfl, rfl, rfl, rfl⟩
    · exact ⟨rfl, rfl, rfl, rfl⟩
  · show (st.triplets.map _).length = st.triplets.length
    rw [List.length_map]
  · intro k hk hk2
    have hget : (resolve_entities_in_state sim pr store st).1.triplets.get ⟨k, hk2⟩
        = applyTripletMap (resolvedIdMap (processClusters sim store []
            (clustersFor pr st.entities)).1) (st.triplets.get ⟨k, hk⟩) := by
      show (st.triplets.map _).get ⟨k, hk2⟩ = _
      simp [List.get_map]
    rw [hget]
    rcases applyTripletMap_frame (resolvedIdMap (processClusters sim store []
      (clustersFor pr st.entities)).1) (st.triplets.get ⟨k, hk⟩) with ⟨h1, h2, h3, h4, h5⟩
    exact ⟨h1, h2, h3, h4, h5⟩
  · intro k hk hk2
    have hk' : k < (embedAll embed events).length := by
      rw [embedAll_length]
      exact hk
    have hfields : (embedAll embed events).get ⟨k, hk'⟩
        = { events.get ⟨k, hk⟩ with embedding := embed (events.get ⟨k, hk⟩).statement } :=
      embedAll_get embed events k hk
    have happ := applyUpdates_get (computeUpdates simF oracle (embedAll embed events))
      (embedAll embed events) k hk'
    cases hl : dictLookup (computeUpdates simF oracle (embedAll embed events))
        (((embedAll embed events).get ⟨k, hk'⟩).id) with
    | none =>
      rw [hl] at happ
      have hout : (invalidate_events_in_state embed simF oracle events).get ⟨k, hk2⟩
          = (embedAll embed events).get ⟨k, hk'⟩ := happ
      rw [hout, hfields]
      exact ⟨rfl, rfl, rfl, rfl, rfl, rfl, rfl, rfl, rfl, rfl⟩
    | some p =>
      rw [hl] at happ
      have hout : (invalidate_events_in_state embed simF oracle events).get ⟨k, hk2⟩
          = { (embedAll embed events).get ⟨k, hk'⟩ with
              invalid_at := some p.1, invalidated_by := some p.2 } := happ
      rw [hout, hfields]
      exact ⟨rfl, rfl, rfl, rfl, rfl, rfl, rfl, rfl, rfl, rfl⟩

/-- Witness for the amended claim C9 at a concrete state and batch. -/
theorem claim9_witness :
    (resolve_entities_in_state (fun _ _ => (100 : ℚ)) (fun _ _ => (100 : ℚ)) []
        wState).1.entities.length = wState.entities.length ∧
    ((resolve_entities_in_state (fun _ _ => (100 : ℚ)) (fun _ _ => (100 : ℚ)) []
        wState).1.entities.get ⟨0, by
          have h := (claim9_frame_amended (fun _ _ => (100 : ℚ)) (fun _ _ => (100 : ℚ)) []
            wState (fun _ => (2 : Nat)) (fun _ _ => true) (fun _ _ => true) wEvents).1
          rw [h]
          decide⟩).name
      = (wState.entities.get ⟨0, by decide⟩).name ∧
    ((invalidate_events_in_state (fun _ => (2 : Nat)) (fun _ _ => true) (fun _ _ => true)
        wEvents).get ⟨0, by rw [invalidate_length]; decide⟩).statement
      = (wEvents.get ⟨0, by decide⟩).statement := by
  have h := claim9_frame_amended (fun _ _ => (100 : ℚ)) (fun _ _ => (100 : ℚ)) [] wState
    (fun _ => (2 : Nat)) (fun _ _ => true) (fun _ _ => true) wEvents
  refine ⟨h.1, ?_, ?_⟩
  · exact (h.2.1 0 (by decide) (by rw [h.1]; decide)).2.1
  · exact (h.2.2.2.2.2.2 0 (by decide) (by rw [invalidate_length]; decide)).2.2.1

/-! ### Graph assembly lemmas (claims C1, C10) -/

theorem addTriplet_nodes {Emb : Type} (events : List (TemporalEvent Emb)) (g : KGraph)
    (t : Triplet) : (addTriplet events g t).nodes = g.nodes := by
  rw [addTriplet]
  cases parentEventOf events t with
  | none => rfl
  | some ev =>
    dsimp only
    by_cases h : hasNodeL g.nodes t.subject_id ∧ hasNodeL g.nodes t.object_id
    · rw [if_pos h]
      rfl
    · rw [if_neg h]

theorem foldl_addTriplet_nodes {Emb : Type} (events : List (TemporalEvent Emb)) :
    ∀ (l : List Triplet) (g : KGraph), (l.foldl (addTriplet events) g).nodes = g.nodes := by
  intro l
  induction l with
  | nil => intro g; rfl
  | cons t rest ih =>
    intro g
    rw [List.foldl_cons, ih, addTriplet_nodes]

theorem foldl_addTriplet_lookup {Emb : Type} (events : List (TemporalEvent Emb)) (K : EdgeKey) :
    ∀ (l : List Triplet) (g : KGraph),
      dictLookup (l.foldl (addTriplet events) g).edges K
        = match (l.filter (fun t => contributes events g.nodes t
              && (edgeKeyOf t == K))).getLast? with
          | some t => attestOf events t
          | none => dictLookup g.edges K := by
  intro l
  induction l with
  | nil => intro g; rfl
  | cons t rest ih =>
    intro g
    rw [List.foldl_cons, List.filter_cons]
    have hnodes := addTriplet_nodes events g t
    have hih := ih (addTriplet events g t)
    rw [hnodes] at hih
    by_cases hc : (contributes events g.nodes t && (edgeKeyOf t == K)) = true
    · rw [if_pos hc, hih]
      have hc' := hc
      simp only [Bool.and_eq_true] at hc'
      obtain ⟨hcon, hkeyb⟩ := hc'
      have hkey : edgeKeyOf t = K := eq_of_beq hkeyb
      rw [contributes] at hcon
      simp only [Bool.and_eq_true] at hcon
      obtain ⟨⟨hpe_some, hsb⟩, hob⟩ := hcon
      rcases Option.isSome_iff_exists.mp hpe_some with ⟨ev, hpe⟩
      have hstep : addTriplet events g t
          = addEdgeMDG g t.subject_id t.object_id t.predicate.value (attrsOf t ev) := by
        rw [addTriplet, hpe]
        dsimp only
        rw [if_pos ⟨hsb, hob⟩]
      have hlook : dictLookup (addTriplet events g t).edges K = some (attrsOf t ev) := by
        rw [hstep, addEdgeMDG]
        have hke : (t.subject_id, t.object_id, t.predicate.value) = K := hkey
        rw [hke]
        exact dictLookup_insert_self _ _ _
      have hattest : attestOf events t = some (attrsOf t ev) := by
        rw [attestOf, hpe]
        rfl
      cases hfl : rest.filter (fun t => contributes events g.nodes t
          && (edgeKeyOf t == K)) with
      | nil =>
        have h1 : ([] : List Triplet).getLast? = none := rfl
        have h2 : ([t] : List Triplet).getLast? = some t := rfl
        rw [h1, h2]
        dsimp only
        rw [hlook, hattest]
      | cons a l2 =>
        rw [List.getLast?_cons_cons]
        cases hgl : (a :: l2).getLast? with
        | none => exact absurd hgl (by cases l2 <;> simp [List.getLast?])
        | some t2 => rfl
    · rw [if_neg hc, hih]
      have hpres : dictLookup (addTriplet events g t).edges K = dictLookup g.edges K := by
        rw [addTriplet]
        cases hpe : parentEventOf events t with
        | none => rfl
        | some ev =>
          dsimp only
          by_cases hcond : hasNodeL g.nodes t.subject_id ∧ hasNodeL g.nodes t.object_id
          · rw [if_pos hcond]
            have hcon : contributes events g.nodes t = true := by
              rw [contributes, hpe]
              simp [hcond.1, hcond.2]
            have hkeyne : ¬ (edgeKeyOf t == K) = true := by
              intro hkeyb
              apply hc
              rw [hcon, hkeyb]
              rfl
            have hkne : (t.subject_id, t.object_id, t.predicate.value) ≠ K := by
              intro he
              exact hkeyne (beq_iff_eq.mpr he)
            rw [addEdgeMDG]
            exact dictLookup_insert_other _ _ _ _ (fun h => hkne h.symm)
          · rw [if_neg hcond]
      rw [hpres]

/-- Claim C1 (amended): for every state and edge key, the assembled graph's
edge at that key carries exactly the attestation of the *last* owned
triplet with that key whose endpoints have nodes: `add_edge` with an
explicit key overwrites, so earlier attestations for the same key are
replaced rather than appended. -/
theorem claim1_amended {Emb : Type} (st : RState Emb) (K : EdgeKey) :
    dictLookup (build_graph_from_state st).edges K
      = match (st.triplets.filter (fun t =>
            contributes st.temporal_events (nodesOf st.entities) t
              && (edgeKeyOf t == K))).getLast? with
        | some t => attestOf st.temporal_events t
        | none => none := by
  rw [build_graph_from_state]
  have h := foldl_addTriplet_lookup st.temporal_events K st.triplets
    { nodes := nodesOf st.entities, edges := [] }
  rw [h]
  rfl

/-- Claim C1 fails as stated: two owned triplets share the edge key
`(1, 2, "PRODUCES")` with attestation statements "s1" then "s2"; the
assembled graph's edge carries only "s2" — the second attestation
overwrote the first instead of being appended. -/
theorem claim1_counterexample :
    ((build_graph_from_state cState).edges.map (fun p => p.2.statement)) = ["s2"] ∧
    ¬ ("s1" ∈ (build_graph_from_state cState).edges.map (fun p => p.2.statement)) := by
  have hn : nodesOf cState.entities
      = [(1, ⟨1, "AMD", "Organization", "", none⟩),
         (2, ⟨2, "Radeon", "Product", "", none⟩)] := by
    rw [nodesOf, canonicalIdsOf]
    rw [show cState.entities.map (fun e =>
      match e.resolved_id with | some r => r | none => e.id) = [1, 2] from rfl]
    rw [firstDedup]
    rw [show List.filter (fun b => decide (b ≠ 1)) [2] = [2] from rfl]
    rw [firstDedup]
    rw [show List.filter (fun b => decide (b ≠ 2)) ([] : List Nat) = [] from rfl]
    rw [firstDedup]
    rfl
  have he : ((build_graph_from_state cState).edges.map (fun p => p.2.statement))
      = ["s2"] := by
    rw [build_graph_from_state, hn]
    rfl
  refine ⟨he, ?_⟩
  intro h
  rw [he] at h
  simp at h

/-! ### Node provenance (claim C10) -/

theorem entityMapOf_foldl_lookup (l : List Entity) :
    ∀ (m : List (Nat × Entity)) (cid : Nat) (ent : Entity),
      dictLookup (l.foldl (fun m e => dictInsert m e.id e) m) cid = some ent →
        dictLookup m cid = some ent ∨ ∃ e ∈ l, e.id = cid := by
  induction l with
  | nil => intro m cid ent h; exact Or.inl h
  | cons e rest ih =>
    intro m cid ent h
    rw [List.foldl_cons] at h
    rcases ih (dictInsert m e.id e) cid ent h with h1 | h2
    · by_cases hid : e.id = cid
      · exact Or.inr ⟨e, List.mem_cons_self _ _, hid⟩
      · rw [dictLookup_insert_other m e.id cid e (fun hh => hid hh.symm)] at h1
        exact Or.inl h1
    · rcases h2 with ⟨e2, hmem, hide⟩
      exact Or.inr ⟨e2, List.mem_cons_of_mem _ hmem, hide⟩

theorem entityMapOf_lookup_mem {entities : List Entity} {cid : Nat} {ent : Entity}
    (h : dictLookup (entityMapOf entities) cid = some ent) :
    ∃ e ∈ entities, e.id = cid := by
  rcases entityMapOf_foldl_lookup entities [] cid ent h with h1 | h2
  · simp [dictLookup] at h1
  · exact h2

theorem nodesOf_mem {entities : List Entity} {cid : Nat} {ent : Entity}
    (h : (cid, ent) ∈ nodesOf entities) : ∃ e ∈ entities, e.id = cid := by
  rw [nodesOf] at h
  rcases List.mem_filterMap.mp h with ⟨c, hc, hf⟩
  cases hl : dictLookup (entityMapOf entities) c with
  | none => rw [hl] at hf; simp at hf
  | some ent2 =>
    rw [hl] at hf
    have hpair : (c, ent2) = (cid, ent) := Option.some.inj hf
    have hcc : c = cid := congrArg Prod.fst hpair
    subst hcc
    exact entityMapOf_lookup_mem hl

theorem hasNodeL_false_of_no_entity {entities : List Entity} {cid : Nat}
    (h : ∀ e ∈ entities, e.id ≠ cid) : hasNodeL (nodesOf entities) cid = false := by
  cases hb : hasNodeL (nodesOf entities) cid with
  | false => rfl
  | true =>
    rw [hasNodeL, List.any_eq_true] at hb
    rcases hb with ⟨p, hp, hbeq⟩
    obtain ⟨c, en⟩ := p
    have hc : c = cid := by simpa using hbeq
    subst hc
    rcases nodesOf_mem hp with ⟨e, he, hide⟩
    exact absurd hide (h e he)

theorem foldl_addTriplet_edges_mem {Emb : Type} (events : List (TemporalEvent Emb)) :
    ∀ (l : List Triplet) (g : KGraph) (p : EdgeKey × EdgeAttrs),
      p ∈ (l.foldl (addTriplet events) g).edges →
        p ∈ g.edges ∨ (hasNodeL g.nodes p.1.1 = true ∧ hasNodeL g.nodes p.1.2.1 = true) := by
  intro l
  induction l with
  | nil => intro g p h; exact Or.inl h
  | cons t rest ih =>
    intro g p h
    rw [List.foldl_cons] at h
    have hnodes := addTriplet_nodes events g t
    rcases ih (addTriplet events g t) p h with h1 | h2
    · rw [addTriplet] at h1
      cases hpe : parentEventOf events t with
      | none => rw [hpe] at h1; exact Or.inl h1
      | some ev =>
        rw [hpe] at h1
        dsimp only at h1
        by_cases hcond : hasNodeL g.nodes t.subject_id ∧ hasNodeL g.nodes t.object_id
        · rw [if_pos hcond] at h1
          rw [addEdgeMDG] at h1
          rcases dictInsert_mem h1 with he | he
          · subst he
            exact Or.inr ⟨hcond.1, hcond.2⟩
          · exact Or.inl he
        · rw [if_neg hcond] at h1
          exact Or.inl h1
    · rw [hnodes] at h2
      exact Or.inr h2

/-- Claim C10: graph nodes exist only for canonical ids that are the id of
some Entity object in the batch list; a canonical id carried by no batch
entity (e.g. one reused from the persistent store) gets no node, and no
assembled edge has it as either endpoint — triplets resolved to such ids
are silently absent from the graph. -/
theorem claim10_store_ids_absent {Emb : Type} (st : RState Emb) (cid : Nat)
    (h : ∀ e ∈ st.entities, e.id ≠ cid) :
    (∀ p ∈ (build_graph_from_state st).nodes, ∃ e ∈ st.entities, e.id = p.1) ∧
    hasNodeL (build_graph_from_state st).nodes cid = false ∧
    (∀ p ∈ (build_graph_from_state st).edges, p.1.1 ≠ cid ∧ p.1.2.1 ≠ cid) := by
  have hng : (build_graph_from_state st).nodes = nodesOf st.entities := by
    rw [build_graph_from_state]
    exact foldl_addTriplet_nodes st.temporal_events st.triplets _
  have hfalse : hasNodeL (nodesOf st.entities) cid = false := hasNodeL_false_of_no_entity h
  refine ⟨?_, ?_, ?_⟩
  · intro p hp
    rw [hng] at hp
    obtain ⟨c, en⟩ := p
    exact nodesOf_mem hp
  · rw [hng]
    exact hfalse
  · intro p hp
    rw [build_graph_from_state] at hp
    rcases foldl_addTriplet_edges_mem st.temporal_events st.triplets
      { nodes := nodesOf st.entities, edges := [] } p hp with h1 | h2
    · simp at h1
    · refine ⟨fun hq => ?_, fun hq => ?_⟩
      · have h21 : hasNodeL (nodesOf st.entities) p.1.1 = true := h2.1
        rw [hq, hfalse] at h21
        exact Bool.noConfusion h21
      · have h22 : hasNodeL (nodesOf st.entities) p.1.2.1 = true := h2.2
        rw [hq, hfalse] at h22
        exact Bool.noConfusion h22

/-- Witness for claim C10: the single batch entity of `wState10` was
resolved to store id 99; no batch entity has id 99, so the graph has no
node 99 and no edge touches 99. -/
theorem claim10_witness :
    (∀ e ∈ wState10.entities, e.id ≠ 99) ∧
    ((∀ p ∈ (build_graph_from_state wState10).nodes, ∃ e ∈ wState10.entities, e.id = p.1) ∧
     hasNodeL (build_graph_from_state wState10).nodes 99 = false ∧
     (∀ p ∈ (build_graph_from_state wState10).edges, p.1.1 ≠ 99 ∧ p.1.2.1 ≠ 99)) := by
  have hh : ∀ e ∈ wState10.entities, e.id ≠ 99 := by decide
  exact ⟨hh, claim10_store_ids_absent wState10 99 hh⟩
